import Mathlib

/-!
Verification development for the async send scheduler / rate limiter
(`bot/services/rate_limiter.py`).  Time is modelled by exact rationals
(seconds of the monotonic event-loop clock).  Python dicts are modelled by
association lists, the `heapq` priority queue by a list viewed as a
multiset with an explicit minimality side condition on pops, and asyncio
futures by a table of single-assignment result slots.
-/

namespace RateLimiterSpec

/-- Recipient identifier: Python `int | str`. -/
abbrev ChatId := Int ⊕ String

/-- Effective configuration of a `RateLimiter` instance, as stored by
`RateLimiter.__init__` (lines 35-71 of `rate_limiter.py`). -/
structure Config where
  global_rate_per_sec : ℕ
  per_chat_cooldown : ℚ
  max_retry_attempts : ℕ
  retry_base_delay : ℚ
  delay_alert_threshold : ℚ
  delay_alert_cooldown : ℚ
deriving DecidableEq

/-- Constructor clamping from `RateLimiter.__init__`:
`self._global_rate_per_sec = max(1, int(global_rate_per_sec))`,
`self._per_chat_cooldown = max(0.0, float(per_chat_cooldown_sec))`,
`self._max_retry_attempts = 3`, `self._retry_base_delay = 0.5`,
`self._delay_alert_cooldown = 300.0`,
`self._delay_alert_threshold = HEAVY_LOAD_DELAY_THRESHOLD_SEC * 2.0`.
The raw rate argument is taken after Python `int(...)`, so as an integer. -/
def mkConfig (global_rate_per_sec : ℤ) (per_chat_cooldown_sec : ℚ)
    (heavy_load_delay_threshold_sec : ℚ) : Config :=
  { global_rate_per_sec := (max 1 global_rate_per_sec).toNat
    per_chat_cooldown := max 0 per_chat_cooldown_sec
    max_retry_attempts := 3
    retry_base_delay := 1 / 2
    delay_alert_threshold := heavy_load_delay_threshold_sec * 2
    delay_alert_cooldown := 300 }

/-- `RateLimiter._trim_global_window`: pop timestamps from the left while
`now - t >= 1.0`. -/
def trim_global_window (now : ℚ) : List ℚ → List ℚ
  | [] => []
  | t :: rest => if now - t ≥ 1 then trim_global_window now rest else t :: rest

/-- `RateLimiter.can_send_global` (the Boolean result; the in-place trim it
performs is applied explicitly at the call sites of the model). -/
def can_send_global (cfg : Config) (w : List ℚ) (now : ℚ) : Bool :=
  (trim_global_window now w).length < cfg.global_rate_per_sec

/-- `RateLimiter.record_global`: trim, then append `now`. -/
def record_global (w : List ℚ) (now : ℚ) : List ℚ :=
  trim_global_window now w ++ [now]

/-- `RateLimiter._next_global_ready`: `now` if the window is empty, else
`max(now, oldest + 1.0)`. -/
def next_global_ready (w : List ℚ) (now : ℚ) : ℚ :=
  match w with
  | [] => now
  | oldest :: _ => max now (oldest + 1)

/-- Association-list lookup for the per-chat map (`dict.get`). -/
def chatLookup : List (ChatId × ℚ) → ChatId → Option ℚ
  | [], _ => none
  | (c', v) :: rest, c => if c = c' then some v else chatLookup rest c

/-- Association-list store for the per-chat map (`dict.__setitem__`);
inserts at the end when the key is new, mirroring Python insertion order. -/
def chatStore : List (ChatId × ℚ) → ChatId → ℚ → List (ChatId × ℚ)
  | [], c, v => [(c, v)]
  | (c', v') :: rest, c, v =>
      if c = c' then (c', v) :: rest else (c', v') :: chatStore rest c v

/-- `RateLimiter.next_allowed_for_chat`: `now` when the chat has no recorded
send, else `max(now, last_sent + cooldown)`. -/
def next_allowed_for_chat (cfg : Config) (lastSent : List (ChatId × ℚ))
    (chat : ChatId) (now : ℚ) : ℚ :=
  match chatLookup lastSent chat with
  | none => now
  | some last => max now (last + cfg.per_chat_cooldown)

/-- `RateLimiter.record_chat_send`:
`self._per_chat_last_sent[chat_id] = max(now, get(chat_id, now))`. -/
def record_chat_send (lastSent : List (ChatId × ℚ)) (chat : ChatId)
    (now : ℚ) : List (ChatId × ℚ) :=
  chatStore lastSent chat (max now ((chatLookup lastSent chat).getD now))

/-- `RateLimiter._retry_backoff`: `base * 2 ** max(0, attempt - 1)`
(the `max 0` of the source is Nat truncated subtraction here). -/
def retry_backoff (cfg : Config) (attempt : ℕ) : ℚ :=
  cfg.retry_base_delay * 2 ^ (attempt - 1)

/-- Error taxonomy observable through a result handle. -/
inductive SendError where
  | retryAfter (d : ℚ)
  | network
  | shutdown
  | other
deriving DecidableEq

/-- State of a result handle (asyncio Future). -/
inductive FutureState where
  | pending
  | resolvedOk
  | resolvedErr (e : SendError)
  | cancelled
deriving DecidableEq

/-- One queued send request (`_QueueEntry`).  The opaque
`method/args/kwargs/context` payload is irrelevant to scheduling and its
behaviour is supplied separately as a `CallOutcome`; the future is
identified by an index into the scheduler's handle table. -/
structure QueueEntry where
  chat_id : ChatId
  future : ℕ
  retries : ℕ
  enqueued_at : ℚ
  ready_at : ℚ
deriving DecidableEq

/-- Possible results of awaiting `entry.method(*args, **kwargs)`. -/
inductive CallOutcome where
  | ok
  | raiseRetryAfter (d : ℚ)
  | raiseNetwork
  | raiseOther
deriving DecidableEq

/-- Outcome of one `RateLimiter._dispatch_entry` call. -/
inductive DispatchResult where
  | resolved
  | rejected (e : SendError)
  | requeued (e : QueueEntry) (ready_at : ℚ)
deriving DecidableEq

/-- `RateLimiter._dispatch_entry` (lines 266-355), as a function of the
single call outcome (every branch of the `while True` loop returns).
`now` is the loop time when the outcome is observed, used for
`ready_at = loop.time() + delay` on retry paths. -/
def dispatch_entry (cfg : Config) (e : QueueEntry) (outcome : CallOutcome)
    (now : ℚ) : DispatchResult :=
  match outcome with
  | .ok => .resolved
  | .raiseRetryAfter d =>
      let attempt := e.retries + 1
      if attempt > cfg.max_retry_attempts then .rejected (.retryAfter d)
      else
        let delay := max d (retry_backoff cfg attempt)
        .requeued { e with retries := attempt } (now + delay)
  | .raiseNetwork =>
      let attempt := e.retries + 1
      if attempt > cfg.max_retry_attempts then .rejected .network
      else
        .requeued { e with retries := attempt } (now + retry_backoff cfg attempt)
  | .raiseOther => .rejected .other

/-- Result of `RateLimiter._handle_ready_entry`: either requeue at a new
ready time, or proceed to dispatch with the (trimmed) window. -/
inductive HandleResult where
  | requeue (ready_at : ℚ)
  | dispatch (window : List ℚ)
deriving DecidableEq

/-- `RateLimiter._handle_ready_entry` (lines 250-264).  `can_send_global`
trims the window in place, so both later reads see the trimmed window. -/
def handle_ready_entry (cfg : Config) (w : List ℚ)
    (lastSent : List (ChatId × ℚ)) (e : QueueEntry) (now : ℚ) : HandleResult :=
  let w' := trim_global_window now w
  if w'.length < cfg.global_rate_per_sec then
    let chat_ready := next_allowed_for_chat cfg lastSent e.chat_id now
    if chat_ready > now then .requeue chat_ready
    else .dispatch w'
  else .requeue (next_global_ready w' now)

/-- Lookup in the result-handle table (first match, as for a dict with
unique keys). -/
def futureLookup : List (ℕ × FutureState) → ℕ → Option FutureState
  | [], _ => none
  | (k, v) :: rest, fid => if fid = k then some v else futureLookup rest fid

/-- Pointwise update of one handle's state. -/
def futureUpdate : List (ℕ × FutureState) → ℕ → (FutureState → FutureState) →
    List (ℕ × FutureState)
  | [], _, _ => []
  | (k, v) :: rest, fid, f =>
      (k, if k = fid then f v else v) :: futureUpdate rest fid f

/-- `RateLimiter._resolve_entry`: `set_result` guarded by `not done`. -/
def resolveTransition (st : FutureState) : FutureState :=
  if st = .pending then .resolvedOk else st

/-- `RateLimiter._reject_entry`: `set_exception` guarded by `not done`. -/
def rejectTransition (e : SendError) (st : FutureState) : FutureState :=
  if st = .pending then .resolvedErr e else st

/-- `asyncio.Future.cancel`: a pending future becomes cancelled. -/
def cancelTransition (st : FutureState) : FutureState :=
  if st = .pending then .cancelled else st

/-- Full scheduler state.  `invoked` and `send_history` are ghost
components recording, respectively, the handles whose operation was
actually invoked and all successful send timestamps; `clock` is the
monotonic loop clock. -/
structure SchedState where
  global_window : List ℚ
  per_chat_last_sent : List (ChatId × ℚ)
  queue : List (ℚ × ℕ × QueueEntry)
  queue_seq : ℕ
  futures : List (ℕ × FutureState)
  next_future : ℕ
  invoked : List ℕ
  send_history : List ℚ
  clock : ℚ

/-- Initial state of a freshly started scheduler. -/
def initState : SchedState :=
  { global_window := []
    per_chat_last_sent := []
    queue := []
    queue_seq := 0
    futures := []
    next_future := 0
    invoked := []
    send_history := []
    clock := 0 }

/-- Future ids of the queued entries. -/
def queueFids (q : List (ℚ × ℕ × QueueEntry)) : List ℕ :=
  q.map fun x => x.2.2.future

/-- `RateLimiter.enqueue_send` (lines 107-174): compute
`ready_at = next_allowed_for_chat(chat_id, now)`, create an entry with a
fresh future, and `heappush` it keyed by `(ready_at, seq)`.  Returns the
new state and the fresh handle id. -/
def enqueue_send (cfg : Config) (s : SchedState) (chat : ChatId) (now : ℚ) :
    SchedState × ℕ :=
  let ready_at := next_allowed_for_chat cfg s.per_chat_last_sent chat now
  let fid := s.next_future
  let e : QueueEntry :=
    { chat_id := chat, future := fid, retries := 0
      enqueued_at := now, ready_at := ready_at }
  ({ s with
      queue := s.queue ++ [(ready_at, s.queue_seq + 1, e)]
      queue_seq := s.queue_seq + 1
      futures := s.futures ++ [(fid, .pending)]
      next_future := fid + 1
      clock := now }, fid)

/-- The queue-removal scan of `RateLimiter._cancel_entry` (lines 392-403):
remove the first queued triple whose entry is the cancelled one (identity
is captured by the handle id), leave the rest; a no-op when absent.
Swap-with-last plus `heapify` only reorders the heap array, which is
irrelevant at the multiset level modelled here. -/
def removeEntry (q : List (ℚ × ℕ × QueueEntry)) (fid : ℕ) :
    List (ℚ × ℕ × QueueEntry) :=
  match q with
  | [] => []
  | x :: rest => if x.2.2.future = fid then rest else x :: removeEntry rest fid

/-- The flush loop of `RateLimiter.stop` (lines 101-105): pop every queued
entry and reject it with `RuntimeError("RateLimiter stopped")`. -/
def rejectQueued (q : List (ℚ × ℕ × QueueEntry))
    (fs : List (ℕ × FutureState)) : List (ℕ × FutureState) :=
  q.foldl (fun fs x => futureUpdate fs x.2.2.future (rejectTransition .shutdown)) fs

/-- `RateLimiter.stop`: cancel the worker (no further invocations) and
flush the queue, rejecting every queued entry. -/
def stopFlush (s : SchedState) : SchedState :=
  { s with queue := [], futures := rejectQueued s.queue s.futures }

/-- The state change of one cancellation (`Future.cancel` plus the
`_cancel_entry` callback) at loop time `now`. -/
def cancelState (s : SchedState) (fid : ℕ) (now : ℚ) : SchedState :=
  { s with
      queue := removeEntry s.queue fid
      futures := futureUpdate s.futures fid cancelTransition
      clock := now }

/-- Result record of `RateLimiter.queue_metrics`. -/
structure Metrics where
  queue_depth : ℕ
  max_delay_sec : ℚ
  avg_delay_sec : ℚ
  max_delay_chat_id : Option ChatId
  max_delay_chat_sec : ℚ
  sampled_at : ℚ
deriving DecidableEq

/-- Python `max(l)` for a nonempty list (`max(delays) if delays else 0.0`
never reaches the empty case in the source). -/
def listMax : List ℚ → ℚ
  | [] => 0
  | x :: rest => rest.foldl max x

/-- The per-chat maximum-delay accumulation of `queue_metrics`:
`if existing is None or delay_val > existing: per_chat[chat] = delay_val`. -/
def chatMaxUpdate : List (ChatId × ℚ) → ChatId → ℚ → List (ChatId × ℚ)
  | [], c, d => [(c, d)]
  | (c', d') :: rest, c, d =>
      if c = c' then (if d > d' then (c', d) :: rest else (c', d') :: rest)
      else (c', d') :: chatMaxUpdate rest c d

/-- Python `max(items, key=value)`: the first pair of maximal value. -/
def argmaxPair : List (ChatId × ℚ) → Option (ChatId × ℚ)
  | [] => none
  | x :: rest =>
      match argmaxPair rest with
      | none => some x
      | some y => if y.2 > x.2 then some y else some x

/-- `RateLimiter.queue_metrics` (lines 419-469), as a function of the
queue snapshot and the sampling time. -/
def queue_metrics (q : List (ℚ × ℕ × QueueEntry)) (now : ℚ) : Metrics :=
  match q with
  | [] =>
      { queue_depth := 0, max_delay_sec := 0, avg_delay_sec := 0
        max_delay_chat_id := none, max_delay_chat_sec := 0, sampled_at := now }
  | _ =>
      let queue_depth := q.length
      let delays := q.map fun x => max 0 (x.1 - now)
      let per_chat := q.foldl
        (fun m x => chatMaxUpdate m x.2.2.chat_id (max 0 (x.1 - now))) []
      let max_delay := listMax delays
      let avg_delay := delays.sum / queue_depth
      match argmaxPair per_chat with
      | some (c, v) =>
          { queue_depth := queue_depth, max_delay_sec := max_delay
            avg_delay_sec := avg_delay, max_delay_chat_id := some c
            max_delay_chat_sec := v, sampled_at := now }
      | none =>
          { queue_depth := queue_depth, max_delay_sec := max_delay
            avg_delay_sec := avg_delay, max_delay_chat_id := none
            max_delay_chat_sec := 0, sampled_at := now }

/-- `RateLimiter._maybe_notify_delay` (lines 471-510), reduced to its
decision state: given whether an operator channel is configured, the last
alert time, the metrics inputs and the current time, return the new
last-alert time and whether a notification is emitted. -/
def maybe_notify_delay (cfg : Config) (adminSet : Bool)
    (lastAlert : Option ℚ) (queue_depth : ℕ) (max_delay : ℚ) (now : ℚ) :
    Option ℚ × Bool :=
  if ¬ adminSet then (lastAlert, false)
  else if queue_depth = 0 ∨ max_delay < cfg.delay_alert_threshold then
    (lastAlert, false)
  else
    match lastAlert with
    | some last =>
        if now - last < cfg.delay_alert_cooldown then (lastAlert, false)
        else (some now, true)
    | none => (some now, true)

/-- A sequence of alert checks (each `queue_depth`, `max_delay_sec`,
loop time) folded through `maybe_notify_delay`; returns the emission
times. -/
def runAlerts (cfg : Config) (adminSet : Bool) :
    Option ℚ → List (ℕ × ℚ × ℚ) → List ℚ
  | _, [] => []
  | lastAlert, (depth, maxDelay, now) :: rest =>
      let r := maybe_notify_delay cfg adminSet lastAlert depth maxDelay now
      (if r.2 then [now] else []) ++ runAlerts cfg adminSet r.1 rest

/-- Effect on the scheduler state of the tail of `_dispatch_entry`:
success records the send in the window, per-chat map and ghost history
and resolves the handle; permanent failure rejects the handle; a retry
pushes the entry back with an incremented sequence number.  `sendTime` is
the loop time when the call outcome is observed. -/
def applyDispatch (cfg : Config) (s : SchedState) (e : QueueEntry)
    (outcome : CallOutcome) (sendTime : ℚ) : SchedState :=
  match dispatch_entry cfg e outcome sendTime with
  | .resolved =>
      { s with
          global_window := record_global s.global_window sendTime
          per_chat_last_sent := record_chat_send s.per_chat_last_sent e.chat_id sendTime
          futures := futureUpdate s.futures e.future resolveTransition
          send_history := s.send_history ++ [sendTime]
          clock := sendTime }
  | .rejected err =>
      { s with
          futures := futureUpdate s.futures e.future (rejectTransition err)
          clock := sendTime }
  | .requeued e' t =>
      { s with
          queue := s.queue ++ [(t, s.queue_seq + 1, e')]
          queue_seq := s.queue_seq + 1
          clock := sendTime }

/-- Lexicographic minimality of a heap key among the queued triples
(`self._queue[0]` of the binary heap). -/
def minimalKey (q : List (ℚ × ℕ × QueueEntry)) (r : ℚ) (n : ℕ) : Prop :=
  ∀ p ∈ q, r < p.1 ∨ (r = p.1 ∧ n ≤ p.2.1)

/-- One observable transition of the scheduler.  Times are drawn from the
monotonic loop clock, so every step happens no earlier than `s.clock`.
The worker steps pop the minimal due triple (`_next_ready_entry`) and run
`_handle_ready_entry`; a `.requeue` outcome re-inserts the entry without
invoking it, while a `.dispatch` outcome invokes the operation, whose
result is an arbitrary environment-chosen `CallOutcome` observed at some
later loop time `sendTime`. -/
inductive Step (cfg : Config) : SchedState → SchedState → Prop
  | enqueue (s : SchedState) (chat : ChatId) (now : ℚ)
      (hclk : s.clock ≤ now) :
      Step cfg s (enqueue_send cfg s chat now).1
  | workerRequeue (s : SchedState) (r : ℚ) (n : ℕ) (e : QueueEntry)
      (now t : ℚ)
      (hmem : (r, n, e) ∈ s.queue) (hmin : minimalKey s.queue r n)
      (hdue : r ≤ now) (hclk : s.clock ≤ now)
      (hres : handle_ready_entry cfg s.global_window s.per_chat_last_sent e now
                = .requeue t) :
      Step cfg s
        { s with
            global_window := trim_global_window now s.global_window
            queue := (s.queue.erase (r, n, e)) ++ [(t, s.queue_seq + 1, { e with ready_at := t })]
            queue_seq := s.queue_seq + 1
            clock := now }
  | workerDispatch (s : SchedState) (r : ℚ) (n : ℕ) (e : QueueEntry)
      (now sendTime : ℚ) (outcome : CallOutcome) (w' : List ℚ)
      (hmem : (r, n, e) ∈ s.queue) (hmin : minimalKey s.queue r n)
      (hdue : r ≤ now) (hclk : s.clock ≤ now) (hsend : now ≤ sendTime)
      (hres : handle_ready_entry cfg s.global_window s.per_chat_last_sent e now
                = .dispatch w') :
      Step cfg s
        (applyDispatch cfg
          { s with
              global_window := w'
              queue := s.queue.erase (r, n, e)
              invoked := s.invoked ++ [e.future]
              clock := now }
          e outcome sendTime)
  | cancel (s : SchedState) (fid : ℕ) (now : ℚ)
      (hclk : s.clock ≤ now)
      (hpend : futureLookup s.futures fid = some .pending) :
      Step cfg s (cancelState s fid now)
  | trim (s : SchedState) (now : ℚ) (hclk : s.clock ≤ now) :
      Step cfg s
        { s with
            global_window := trim_global_window now s.global_window
            clock := now }
  | stop (s : SchedState) (now : ℚ) (hclk : s.clock ≤ now) :
      Step cfg s { stopFlush s with clock := now }

/-- States reachable from the freshly started scheduler. -/
def Reachable (cfg : Config) (s : SchedState) : Prop :=
  Relation.ReflTransGen (Step cfg) initState s

/-- The claim's `next_allowed(target)` at admission time, written from
the spec wording for comparison with the source's
`next_allowed_for_chat`: `now` itself when the target has no recorded
prior send, and `last_sent + per_chat_cooldown` otherwise. -/
def admissionBase (cfg : Config) (s : SchedState) (chat : ChatId) (now : ℚ) : ℚ :=
  match chatLookup s.per_chat_last_sent chat with
  | none => now
  | some last => last + cfg.per_chat_cooldown

/-- Keys of the result-handle table. -/
def futureKeys (fs : List (ℕ × FutureState)) : List ℕ :=
  fs.map Prod.fst

/-- Structural well-formedness of a scheduler state: queued entries carry
pairwise-distinct handles, every allocated handle id is below the
fresh-id counter, and every queued entry's handle is still pending. -/
def WF (s : SchedState) : Prop :=
  (queueFids s.queue).Nodup
  ∧ (∀ fid ∈ futureKeys s.futures, fid < s.next_future)
  ∧ (∀ fid ∈ queueFids s.queue, futureLookup s.futures fid = some .pending)

/-- Number of recorded sends inside the half-open 1-second sliding window
ending at `q` (a timestamp `t` is inside when `q - 1 < t ≤ q`; at age
exactly 1 second the source prunes it, `now - t >= 1.0`). -/
def slidingCount (h : List ℚ) (q : ℚ) : ℕ :=
  (h.filter fun t => decide (q - 1 < t) && decide (t ≤ q)).length

/-- Global-window invariant: the ghost send history is time-ordered and
in the past; the window is exactly the history newer than some cutoff no
later than the clock; the window is bounded by the configured rate; and
every 1-second sliding window of the history is bounded by the rate. -/
def GInv (cfg : Config) (s : SchedState) : Prop :=
  s.send_history.Sorted (· ≤ ·)
  ∧ (∀ t ∈ s.send_history, t ≤ s.clock)
  ∧ (∃ c ≤ s.clock,
      s.global_window = s.send_history.filter fun t => decide (c - 1 < t))
  ∧ s.global_window.length ≤ cfg.global_rate_per_sec
  ∧ ∀ q : ℚ, slidingCount s.send_history q ≤ cfg.global_rate_per_sec

/-- A handle that has been cancelled and whose entry is gone from the
queue. -/
def Dead (fid : ℕ) (s : SchedState) : Prop :=
  futureLookup s.futures fid = some .cancelled ∧ fid ∉ queueFids s.queue

theorem trim_sublist (now : ℚ) (l : List ℚ) :
    List.Sublist (trim_global_window now l) l := by
  induction l with
  | nil => simp [trim_global_window]
  | cons t rest ih =>
      simp only [trim_global_window]
      split
      · exact ih.trans (List.sublist_cons_self t rest)
      · exact List.Sublist.refl _

theorem trim_length_le (now : ℚ) (l : List ℚ) :
    (trim_global_window now l).length ≤ l.length :=
  (trim_sublist now l).length_le

/-- On a time-ordered list the lazy left trim removes exactly the
timestamps aged 1 second or more. -/
theorem trim_eq_filter (now : ℚ) (l : List ℚ) (hl : l.Sorted (· ≤ ·)) :
    trim_global_window now l = l.filter fun t => decide (now - 1 < t) := by
  induction l with
  | nil => simp [trim_global_window]
  | cons t rest ih =>
      have hrest : rest.Sorted (· ≤ ·) := hl.of_cons
      have hhead : ∀ t' ∈ rest, t ≤ t' := fun t' ht' => (List.rel_of_sorted_cons hl) t' ht'
      simp only [trim_global_window]
      split
      · rename_i hold
        have : ¬ (now - 1 < t) := by linarith
        simp [this, ih hrest]
      · rename_i hnew
        have ht : now - 1 < t := by
          push_neg at hnew
          linarith
        have : ∀ t' ∈ rest, decide (now - 1 < t') = true := by
          intro t' ht'
          have := hhead t' ht'
          simp only [decide_eq_true_eq]
          linarith
        rw [List.filter_cons]
        simp only [decide_eq_true ht, if_true]
        rw [List.filter_eq_self.mpr this]

theorem filter_filter_cutoff (c now : ℚ) (h : List ℚ) (hc : c ≤ now) :
    ((h.filter fun t => decide (c - 1 < t)).filter fun t => decide (now - 1 < t))
      = h.filter fun t => decide (now - 1 < t) := by
  induction h with
  | nil => simp
  | cons t rest ih =>
      by_cases h1 : now - 1 < t
      · have h2 : c - 1 < t := by linarith
        simp [List.filter_cons, h1, h2, ih]
      · by_cases h2 : c - 1 < t
        · simp [List.filter_cons, h1, h2, ih]
        · simp [List.filter_cons, h1, h2, ih]

theorem length_filter_mono {α : Type} (l : List α) (p q : α → Bool)
    (h : ∀ a ∈ l, p a = true → q a = true) :
    (l.filter p).length ≤ (l.filter q).length := by
  induction l with
  | nil => simp
  | cons x rest ih =>
      have ih' := ih fun a ha => h a (List.mem_cons_of_mem x ha)
      by_cases hp : p x = true
      · have hq := h x (List.mem_cons_self x rest) hp
        simp [List.filter_cons, hp, hq]
        exact ih'
      · by_cases hq : q x = true
        · simp [List.filter_cons, hp, hq]
          exact Nat.le_succ_of_le ih'
        · simp [List.filter_cons, hp, hq]
          exact ih'

/-- C10: for every pair of constructor arguments, including out-of-range
values, the effective configuration satisfies `global_rate_per_sec >= 1`
and `per_chat_cooldown >= 0`; construction clamps the given rate to
`max(1, int(given))` and the cooldown to `max(0.0, given)`, and these
clamped values are exactly the ones consulted by the dispatch-time global
check and the admission-time cooldown computation. -/
theorem C10_constructor_clamps (r : ℤ) (c h : ℚ) :
    1 ≤ (mkConfig r c h).global_rate_per_sec
    ∧ 0 ≤ (mkConfig r c h).per_chat_cooldown
    ∧ ((mkConfig r c h).global_rate_per_sec : ℤ) = max 1 r
    ∧ (mkConfig r c h).per_chat_cooldown = max 0 c
    ∧ (∀ w now, can_send_global (mkConfig r c h) w now
        = decide ((trim_global_window now w).length < (max 1 r).toNat))
    ∧ ∀ ls chat now, next_allowed_for_chat (mkConfig r c h) ls chat now
        = match chatLookup ls chat with
          | none => now
          | some last => max now (last + max 0 c) := by
  have h1 : (1 : ℤ) ≤ max 1 r := le_max_left 1 r
  refine ⟨?_, le_max_left 0 c, ?_, rfl, ?_, ?_⟩
  · show 1 ≤ (max 1 r).toNat
    omega
  · show ((max 1 r).toNat : ℤ) = max 1 r
    omega
  · intro w now
    rfl
  · intro ls chat now
    rfl

/-- C7: `queue_metrics` on an empty queue reports depth 0, zero for every
numeric delay field, and no worst-delay chat id. -/
theorem C7_empty_queue_metrics (now : ℚ) :
    queue_metrics [] now
      = { queue_depth := 0, max_delay_sec := 0, avg_delay_sec := 0
          max_delay_chat_id := none, max_delay_chat_sec := 0
          sampled_at := now } := rfl

/-- C1: if the send operation raises `RetryAfter D` on every invocation,
an entry starting at `retries = 0` is re-admitted with delay
`max(D, base_delay * 2 ^ (attempt - 1))`, hence delay at least `D`, for
each attempt `1 .. max_retry_attempts`, and the attempt numbered
`max_retry_attempts + 1` permanently fails the entry by rejecting its
result handle with the error instead of re-admitting it. -/
theorem C1_retry_after_exhaustion (cfg : Config) (D : ℚ) (e : QueueEntry)
    (t : ℕ → ℚ) :
    (∀ k, 1 ≤ k → k ≤ cfg.max_retry_attempts →
      dispatch_entry cfg { e with retries := k - 1 } (.raiseRetryAfter D) (t k)
        = .requeued { e with retries := k }
            (t k + max D (cfg.retry_base_delay * 2 ^ (k - 1)))
      ∧ D ≤ max D (cfg.retry_base_delay * 2 ^ (k - 1)))
    ∧ dispatch_entry cfg { e with retries := cfg.max_retry_attempts }
        (.raiseRetryAfter D) (t 0)
      = .rejected (.retryAfter D) := by
  constructor
  · intro k hk1 hk
    have hsub : k - 1 + 1 = k := by omega
    have hle : ¬ (k - 1 + 1 > cfg.max_retry_attempts) := by omega
    refine ⟨?_, le_max_left D _⟩
    cases e with
    | mk chat fid ret enq ra =>
        simp only [dispatch_entry, retry_backoff]
        rw [if_neg hle, hsub]
  · have hgt : cfg.max_retry_attempts + 1 > cfg.max_retry_attempts :=
      Nat.lt_succ_self _
    simp only [dispatch_entry]
    rw [if_pos hgt]

theorem C1_witness :
    (dispatch_entry (mkConfig 30 1 10)
        { chat_id := Sum.inl 1, future := 0, retries := 1 - 1
          enqueued_at := 0, ready_at := 0 } (.raiseRetryAfter 2) 1
      = .requeued
          { chat_id := Sum.inl 1, future := 0, retries := 1
            enqueued_at := 0, ready_at := 0 }
          (1 + max 2 ((mkConfig 30 1 10).retry_base_delay * 2 ^ (1 - 1)))
      ∧ (2 : ℚ) ≤ max 2 ((mkConfig 30 1 10).retry_base_delay * 2 ^ (1 - 1)))
    ∧ dispatch_entry (mkConfig 30 1 10)
        { chat_id := Sum.inl 1, future := 0
          retries := (mkConfig 30 1 10).max_retry_attempts
          enqueued_at := 0, ready_at := 0 } (.raiseRetryAfter 2) 0
      = .rejected (.retryAfter 2) := by
  have h := C1_retry_after_exhaustion (mkConfig 30 1 10) 2
    { chat_id := Sum.inl 1, future := 0, retries := 0
      enqueued_at := 0, ready_at := 0 } (fun k => k)
  exact ⟨h.1 1 (by decide) (by decide), h.2⟩

/-- C6: for a due entry, a saturated global window requeues it at the
expiry time of the oldest window timestamp (oldest + 1 second, floored at
`now`) without dispatching; otherwise an unexpired recipient cooldown
requeues it at the recipient's next-allowed time without dispatching;
otherwise the worker proceeds to dispatch. -/
theorem C6_revalidation_policy (cfg : Config) (w : List ℚ)
    (ls : List (ChatId × ℚ)) (e : QueueEntry) (now : ℚ)
    (hrate : 1 ≤ cfg.global_rate_per_sec) :
    (cfg.global_rate_per_sec ≤ (trim_global_window now w).length →
      handle_ready_entry cfg w ls e now
        = .requeue (max now ((trim_global_window now w).headI + 1)))
    ∧ ((trim_global_window now w).length < cfg.global_rate_per_sec →
      now < next_allowed_for_chat cfg ls e.chat_id now →
      handle_ready_entry cfg w ls e now
        = .requeue (next_allowed_for_chat cfg ls e.chat_id now))
    ∧ ((trim_global_window now w).length < cfg.global_rate_per_sec →
      next_allowed_for_chat cfg ls e.chat_id now ≤ now →
      handle_ready_entry cfg w ls e now
        = .dispatch (trim_global_window now w)) := by
  refine ⟨?_, ?_, ?_⟩
  · intro hsat
    have hne : ¬ ((trim_global_window now w).length < cfg.global_rate_per_sec) :=
      not_lt.mpr hsat
    have hnonempty : trim_global_window now w ≠ [] := by
      intro hempty
      rw [hempty] at hsat
      simp at hsat
      omega
    simp only [handle_ready_entry]
    rw [if_neg hne]
    cases htrim : trim_global_window now w with
    | nil => exact absurd htrim hnonempty
    | cons oldest rest => simp [next_global_ready, htrim]
  · intro hok hcool
    simp only [handle_ready_entry]
    rw [if_pos hok, if_pos hcool]
  · intro hok hcool
    have hc : ¬ (next_allowed_for_chat cfg ls e.chat_id now > now) :=
      not_lt.mpr hcool
    simp only [handle_ready_entry]
    rw [if_pos hok, if_neg hc]

theorem C6_witness :
    (1 : ℕ) ≤ (mkConfig 1 1 10).global_rate_per_sec
    ∧ ((mkConfig 1 1 10).global_rate_per_sec
        ≤ (trim_global_window (1/2) [(0 : ℚ)]).length
      → handle_ready_entry (mkConfig 1 1 10) [(0 : ℚ)] []
          { chat_id := Sum.inl 1, future := 0, retries := 0
            enqueued_at := 0, ready_at := 0 } (1/2)
        = .requeue (max (1/2) ((trim_global_window (1/2) [(0 : ℚ)]).headI + 1))) := by
  refine ⟨by decide, ?_⟩
  exact (C6_revalidation_policy (mkConfig 1 1 10) [(0 : ℚ)] []
    { chat_id := Sum.inl 1, future := 0, retries := 0
      enqueued_at := 0, ready_at := 0 } (1/2) (by decide)).1

theorem futureLookup_append (fs gs : List (ℕ × FutureState)) (fid : ℕ) :
    futureLookup (fs ++ gs) fid
      = match futureLookup fs fid with
        | some v => some v
        | none => futureLookup gs fid := by
  induction fs with
  | nil => simp [futureLookup]
  | cons p rest ih =>
      by_cases h : fid = p.1
      · simp [futureLookup, h]
      · simp only [List.cons_append, futureLookup, if_neg h]
        exact ih

theorem mem_keys_of_lookup_some (fs : List (ℕ × FutureState)) (fid : ℕ)
    (v : FutureState) (h : futureLookup fs fid = some v) :
    fid ∈ futureKeys fs := by
  induction fs with
  | nil => simp [futureLookup] at h
  | cons p rest ih =>
      by_cases heq : fid = p.1
      · simp [futureKeys, heq]
      · simp only [futureLookup, if_neg heq] at h
        simp [futureKeys] at ih ⊢
        exact Or.inr (ih h)

theorem lookup_none_of_keys_lt (fs : List (ℕ × FutureState)) (n : ℕ)
    (h : ∀ k ∈ futureKeys fs, k < n) : futureLookup fs n = none := by
  induction fs with
  | nil => rfl
  | cons p rest ih =>
      have hp : p.1 < n := h p.1 (by simp [futureKeys])
      have hne : ¬ (n = p.1) := by omega
      simp only [futureLookup, if_neg hne]
      exact ih fun k hk => h k (by simp [futureKeys] at hk ⊢; exact Or.inr hk)

theorem futureLookup_update (fs : List (ℕ × FutureState)) (fid : ℕ)
    (f : FutureState → FutureState) (g : ℕ) :
    futureLookup (futureUpdate fs fid f) g
      = if g = fid then (futureLookup fs fid).map f else futureLookup fs g := by
  induction fs with
  | nil => simp [futureUpdate, futureLookup]
  | cons p rest ih =>
      obtain ⟨k, v⟩ := p
      simp only [futureUpdate]
      by_cases hg : g = k
      · subst hg
        by_cases hk : g = fid
        · subst hk
          simp [futureLookup]
        · simp [futureLookup, hk, Ne.symm hk]
      · by_cases hgf : g = fid
        · subst hgf
          have hfk : ¬ (g = k) := hg
          simp [futureLookup, hg, hfk, ih]
        · simp [futureLookup, hg, hgf, ih]

theorem futureKeys_update (fs : List (ℕ × FutureState)) (fid : ℕ)
    (f : FutureState → FutureState) :
    futureKeys (futureUpdate fs fid f) = futureKeys fs := by
  induction fs with
  | nil => rfl
  | cons p rest ih =>
      by_cases hp : p.1 = fid
      · simp only [futureUpdate, List.map_cons, if_pos hp, futureKeys] at ih ⊢
        simp [ih]
      · simp only [futureUpdate, List.map_cons, if_neg hp, futureKeys] at ih ⊢
        simp [ih]

theorem rejectQueued_preserves_nonpending (q : List (ℚ × ℕ × QueueEntry))
    (fs : List (ℕ × FutureState)) (fid : ℕ) (v : FutureState)
    (hv : futureLookup fs fid = some v) (hnp : v ≠ .pending) :
    futureLookup (rejectQueued q fs) fid = some v := by
  induction q generalizing fs with
  | nil => exact hv
  | cons x rest ih =>
      simp only [rejectQueued, List.foldl_cons]
      apply ih
      rw [futureLookup_update]
      by_cases h : fid = x.2.2.future
      · rw [if_pos h, ← h, hv]
        simp [rejectTransition, hnp]
      · rw [if_neg h]
        exact hv

theorem rejectQueued_rejects_pending (q : List (ℚ × ℕ × QueueEntry))
    (fs : List (ℕ × FutureState)) (fid : ℕ)
    (hv : futureLookup fs fid = some .pending) (hmem : fid ∈ queueFids q) :
    futureLookup (rejectQueued q fs) fid = some (.resolvedErr .shutdown) := by
  induction q generalizing fs with
  | nil => simp [queueFids] at hmem
  | cons x rest ih =>
      simp only [rejectQueued, List.foldl_cons]
      by_cases h : fid = x.2.2.future
      · have hafter :
            futureLookup (futureUpdate fs x.2.2.future (rejectTransition .shutdown)) fid
              = some (.resolvedErr .shutdown) := by
          rw [futureLookup_update, if_pos h, ← h, hv]
          simp [rejectTransition]
        exact rejectQueued_preserves_nonpending rest _ fid _ hafter (by simp)
      · have hmem' : fid ∈ queueFids rest := by
          simp [queueFids] at hmem
          rcases hmem with h1 | h1
          · exact absurd h1 h
          · simpa [queueFids] using h1
        refine ih _ ?_ hmem'
        rw [futureLookup_update, if_neg h]
        exact hv

/-- C4: flushing the queue at scheduler stop leaves the queue empty,
invokes no queued entry's operation, and resolves every queued entry's
still-pending result handle with the shutdown error. -/
theorem C4_stop_flushes_queue (s : SchedState) :
    (stopFlush s).queue = []
    ∧ (stopFlush s).invoked = s.invoked
    ∧ ∀ r n (e : QueueEntry), (r, n, e) ∈ s.queue →
        futureLookup s.futures e.future = some .pending →
        futureLookup (stopFlush s).futures e.future
          = some (.resolvedErr .shutdown) := by
  refine ⟨rfl, rfl, ?_⟩
  intro r n e hmem hpend
  have hfid : e.future ∈ queueFids s.queue := by
    simp only [queueFids, List.mem_map]
    exact ⟨(r, n, e), hmem, rfl⟩
  exact rejectQueued_rejects_pending s.queue s.futures e.future hpend hfid

theorem C4_witness :
    (stopFlush ((enqueue_send (mkConfig 30 1 10) initState (Sum.inl 5) 0).1)).queue = []
    ∧ (stopFlush ((enqueue_send (mkConfig 30 1 10) initState (Sum.inl 5) 0).1)).invoked
        = ((enqueue_send (mkConfig 30 1 10) initState (Sum.inl 5) 0).1).invoked
    ∧ futureLookup
        (stopFlush ((enqueue_send (mkConfig 30 1 10) initState (Sum.inl 5) 0).1)).futures
        0 = some (.resolvedErr .shutdown) := by
  have h := C4_stop_flushes_queue (enqueue_send (mkConfig 30 1 10) initState (Sum.inl 5) 0).1
  refine ⟨h.1, h.2.1, ?_⟩
  have := h.2.2 0 1
    { chat_id := Sum.inl 5, future := 0, retries := 0
      enqueued_at := 0, ready_at := 0 }
    (by decide) (by decide)
  exact this

/-- C3: admitting an operation for `chat` at time `now` creates an entry
whose `ready_at` is `max now na`, where `na` is `now` itself when the
chat has no recorded prior send and `last_sent + cooldown` otherwise;
the entry is appended to the queue keyed by `(ready_at, queue_seq + 1)`
with a fresh, still-unresolved result handle, and that handle id is the
one returned to the caller. -/
theorem C3_admission_contract (cfg : Config) (s : SchedState) (chat : ChatId)
    (now : ℚ) (hwf : WF s) :
    (enqueue_send cfg s chat now).2 = s.next_future
    ∧ (enqueue_send cfg s chat now).1.queue
        = s.queue ++ [(max now (admissionBase cfg s chat now), s.queue_seq + 1,
            { chat_id := chat, future := s.next_future, retries := 0
              enqueued_at := now
              ready_at := max now (admissionBase cfg s chat now) })]
    ∧ futureLookup s.futures s.next_future = none
    ∧ futureLookup (enqueue_send cfg s chat now).1.futures s.next_future
        = some .pending := by
  have hready : next_allowed_for_chat cfg s.per_chat_last_sent chat now
      = max now (admissionBase cfg s chat now) := by
    unfold next_allowed_for_chat admissionBase
    cases chatLookup s.per_chat_last_sent chat with
    | none => simp
    | some last => rfl
  have hfresh : futureLookup s.futures s.next_future = none :=
    lookup_none_of_keys_lt s.futures s.next_future hwf.2.1
  refine ⟨rfl, ?_, hfresh, ?_⟩
  · simp only [enqueue_send, hready]
  · simp only [enqueue_send]
    rw [futureLookup_append, hfresh]
    simp [futureLookup]

theorem C3_witness :
    WF initState
    ∧ (enqueue_send (mkConfig 30 1 10) initState (Sum.inl 7) 2).2
        = initState.next_future
    ∧ (enqueue_send (mkConfig 30 1 10) initState (Sum.inl 7) 2).1.queue
        = initState.queue
          ++ [(max 2 (admissionBase (mkConfig 30 1 10) initState (Sum.inl 7) 2),
               initState.queue_seq + 1,
               { chat_id := Sum.inl 7, future := initState.next_future
                 retries := 0, enqueued_at := 2
                 ready_at := max 2 (admissionBase (mkConfig 30 1 10) initState (Sum.inl 7) 2) })]
    ∧ futureLookup initState.futures initState.next_future = none
    ∧ futureLookup (enqueue_send (mkConfig 30 1 10) initState (Sum.inl 7) 2).1.futures
        initState.next_future = some .pending := by
  have hwf : WF initState := by
    refine ⟨List.nodup_nil, ?_, ?_⟩ <;> intro fid h <;> simp [futureKeys, queueFids, initState] at h
  exact ⟨hwf, C3_admission_contract (mkConfig 30 1 10) initState (Sum.inl 7) 2 hwf⟩

theorem foldl_max_le_init (l : List ℚ) (a : ℚ) : a ≤ l.foldl max a := by
  induction l generalizing a with
  | nil => exact le_refl a
  | cons x rest ih => exact le_trans (le_max_left a x) (ih (max a x))

theorem le_foldl_max (l : List ℚ) (a d : ℚ) (hd : d ∈ l) :
    d ≤ l.foldl max a := by
  induction l generalizing a with
  | nil => simp at hd
  | cons x rest ih =>
      rcases List.mem_cons.mp hd with h | h
      · subst h
        exact le_trans (le_max_right a d) (foldl_max_le_init rest (max a d))
      · exact ih (max a x) h

theorem foldl_max_mem (l : List ℚ) (a : ℚ) :
    l.foldl max a = a ∨ l.foldl max a ∈ l := by
  induction l generalizing a with
  | nil => exact Or.inl rfl
  | cons x rest ih =>
      rcases ih (max a x) with h | h
      · rcases max_choice a x with hm | hm
        · exact Or.inl (by rw [List.foldl_cons, h, hm])
        · exact Or.inr (by rw [List.foldl_cons, h, hm]; exact List.mem_cons_self x rest)
      · exact Or.inr (List.mem_cons_of_mem x h)

theorem le_listMax (l : List ℚ) (d : ℚ) (hd : d ∈ l) : d ≤ listMax l := by
  cases l with
  | nil => simp at hd
  | cons x rest =>
      rcases List.mem_cons.mp hd with h | h
      · subst h
        exact foldl_max_le_init rest d
      · exact le_foldl_max rest x d h

theorem listMax_mem (l : List ℚ) (hl : l ≠ []) : listMax l ∈ l := by
  cases l with
  | nil => exact absurd rfl hl
  | cons x rest =>
      rcases foldl_max_mem rest x with h | h
      · rw [listMax, h]
        exact List.mem_cons_self x rest
      · exact List.mem_cons_of_mem x h

theorem chatMaxUpdate_ne_nil (m : List (ChatId × ℚ)) (c : ChatId) (d : ℚ) :
    chatMaxUpdate m c d ≠ [] := by
  cases m with
  | nil => simp [chatMaxUpdate]
  | cons p rest =>
      obtain ⟨c', d'⟩ := p
      by_cases hc : c = c'
      · by_cases hd : d > d' <;> simp [chatMaxUpdate, hc, hd]
      · simp [chatMaxUpdate, hc]

theorem chatMaxUpdate_value_src (m : List (ChatId × ℚ)) (c : ChatId) (d : ℚ)
    (x : ChatId × ℚ) (hx : x ∈ chatMaxUpdate m c d) :
    x.2 = d ∨ ∃ y ∈ m, x.2 = y.2 := by
  induction m with
  | nil =>
      simp [chatMaxUpdate] at hx
      exact Or.inl (by rw [hx])
  | cons p rest ih =>
      obtain ⟨c', d'⟩ := p
      by_cases hc : c = c'
      · by_cases hd : d > d'
        · simp only [chatMaxUpdate, if_pos hc, if_pos hd] at hx
          rcases List.mem_cons.mp hx with h | h
          · exact Or.inl (by rw [h])
          · exact Or.inr ⟨x, List.mem_cons_of_mem _ h, rfl⟩
        · simp only [chatMaxUpdate, if_pos hc, if_neg hd] at hx
          exact Or.inr ⟨x, hx, rfl⟩
      · simp only [chatMaxUpdate, if_neg hc] at hx
        rcases List.mem_cons.mp hx with h | h
        · exact Or.inr ⟨x, by rw [h]; exact List.mem_cons_self _ _, rfl⟩
        · rcases ih h with h1 | ⟨y, hy, hxy⟩
          · exact Or.inl h1
          · exact Or.inr ⟨y, List.mem_cons_of_mem _ hy, hxy⟩

theorem chatMaxUpdate_dominates_old (m : List (ChatId × ℚ)) (c : ChatId)
    (d : ℚ) (y : ChatId × ℚ) (hy : y ∈ m) :
    ∃ x ∈ chatMaxUpdate m c d, y.2 ≤ x.2 := by
  induction m with
  | nil => simp at hy
  | cons p rest ih =>
      obtain ⟨c', d'⟩ := p
      by_cases hc : c = c'
      · by_cases hd : d > d'
        · simp only [chatMaxUpdate, if_pos hc, if_pos hd]
          rcases List.mem_cons.mp hy with h | h
          · exact ⟨(c', d), List.mem_cons_self _ _, by rw [h]; exact le_of_lt hd⟩
          · exact ⟨y, List.mem_cons_of_mem _ h, le_refl _⟩
        · simp only [chatMaxUpdate, if_pos hc, if_neg hd]
          exact ⟨y, hy, le_refl _⟩
      · simp only [chatMaxUpdate, if_neg hc]
        rcases List.mem_cons.mp hy with h | h
        · exact ⟨(c', d'), List.mem_cons_self _ _, by rw [h]⟩
        · obtain ⟨x, hx, hyx⟩ := ih h
          exact ⟨x, List.mem_cons_of_mem _ hx, hyx⟩

theorem chatMaxUpdate_dominates_new (m : List (ChatId × ℚ)) (c : ChatId)
    (d : ℚ) : ∃ x ∈ chatMaxUpdate m c d, d ≤ x.2 := by
  induction m with
  | nil => exact ⟨(c, d), by simp [chatMaxUpdate], le_refl d⟩
  | cons p rest ih =>
      obtain ⟨c', d'⟩ := p
      by_cases hc : c = c'
      · by_cases hd : d > d'
        · simp only [chatMaxUpdate, if_pos hc, if_pos hd]
          exact ⟨(c', d), List.mem_cons_self _ _, le_refl d⟩
        · simp only [chatMaxUpdate, if_pos hc, if_neg hd]
          exact ⟨(c', d'), List.mem_cons_self _ _, le_of_not_lt hd⟩
      · simp only [chatMaxUpdate, if_neg hc]
        obtain ⟨x, hx, hdx⟩ := ih
        exact ⟨x, List.mem_cons_of_mem _ hx, hdx⟩

theorem argmaxPair_isSome (m : List (ChatId × ℚ)) (hm : m ≠ []) :
    ∃ p, argmaxPair m = some p := by
  cases m with
  | nil => exact absurd rfl hm
  | cons x rest =>
      cases hrest : argmaxPair rest with
      | none => exact ⟨x, by simp [argmaxPair, hrest]⟩
      | some y =>
          by_cases h : y.2 > x.2
          · refine ⟨y, ?_⟩
            simp only [argmaxPair, hrest]
            show (if y.2 > x.2 then some y else some x) = some y
            rw [if_pos h]
          · refine ⟨x, ?_⟩
            simp only [argmaxPair, hrest]
            show (if y.2 > x.2 then some y else some x) = some x
            rw [if_neg h]

theorem argmaxPair_spec (m : List (ChatId × ℚ)) (c : ChatId) (v : ℚ)
    (h : argmaxPair m = some (c, v)) :
    (c, v) ∈ m ∧ ∀ y ∈ m, y.2 ≤ v := by
  induction m generalizing c v with
  | nil => simp [argmaxPair] at h
  | cons x rest ih =>
      simp only [argmaxPair] at h
      cases hrest : argmaxPair rest with
      | none =>
          rw [hrest] at h
          have h' : some x = some (c, v) := h
          cases rest with
          | nil =>
              injection h' with h'
              subst h'
              exact ⟨List.mem_cons_self _ _, by simp⟩
          | cons z zs =>
              obtain ⟨p, hp⟩ := argmaxPair_isSome (z :: zs) (by simp)
              rw [hp] at hrest
              cases hrest
      | some y =>
          rw [hrest] at h
          have h' : (if y.2 > x.2 then some y else some x) = some (c, v) := h
          obtain ⟨hymem, hydom⟩ := ih y.1 y.2 (by rw [hrest])
          by_cases hgt : y.2 > x.2
          · rw [if_pos hgt] at h'
            have hy : y = (c, v) := by injection h' with h'
            subst hy
            refine ⟨List.mem_cons_of_mem _ hymem, ?_⟩
            intro z hz
            rcases List.mem_cons.mp hz with h1 | h1
            · rw [h1]; exact le_of_lt hgt
            · exact hydom z h1
          · rw [if_neg hgt] at h'
            have hx : x = (c, v) := by injection h' with h'
            subst hx
            refine ⟨List.mem_cons_self _ _, ?_⟩
            intro z hz
            rcases List.mem_cons.mp hz with h1 | h1
            · rw [h1]
            · exact le_trans (hydom z h1) (le_of_not_lt hgt)

theorem perChatFold_ne_nil (q : List (ℚ × ℕ × QueueEntry)) (now : ℚ)
    (m : List (ChatId × ℚ)) (hm : m ≠ []) :
    q.foldl (fun m x => chatMaxUpdate m x.2.2.chat_id (max 0 (x.1 - now))) m ≠ [] := by
  induction q generalizing m with
  | nil => exact hm
  | cons x rest ih =>
      exact ih _ (chatMaxUpdate_ne_nil m x.2.2.chat_id (max 0 (x.1 - now)))

theorem perChatFold_value_src (q : List (ℚ × ℕ × QueueEntry)) (now : ℚ)
    (m : List (ChatId × ℚ)) (x : ChatId × ℚ)
    (hx : x ∈ q.foldl (fun m x => chatMaxUpdate m x.2.2.chat_id (max 0 (x.1 - now))) m) :
    (∃ y ∈ m, x.2 = y.2) ∨ ∃ z ∈ q, x.2 = max 0 (z.1 - now) := by
  induction q generalizing m with
  | nil => exact Or.inl ⟨x, hx, rfl⟩
  | cons z rest ih =>
      rcases ih _ hx with ⟨y, hy, hxy⟩ | ⟨z', hz', hxz⟩
      · rcases chatMaxUpdate_value_src m z.2.2.chat_id (max 0 (z.1 - now)) y hy with h1 | ⟨w, hw, hyw⟩
        · exact Or.inr ⟨z, List.mem_cons_self _ _, by rw [hxy, h1]⟩
        · exact Or.inl ⟨w, hw, by rw [hxy, hyw]⟩
      · exact Or.inr ⟨z', List.mem_cons_of_mem _ hz', hxz⟩

theorem perChatFold_dominates_old (q : List (ℚ × ℕ × QueueEntry)) (now : ℚ)
    (m : List (ChatId × ℚ)) (y : ChatId × ℚ) (hy : y ∈ m) :
    ∃ x ∈ q.foldl (fun m x => chatMaxUpdate m x.2.2.chat_id (max 0 (x.1 - now))) m,
      y.2 ≤ x.2 := by
  induction q generalizing m y with
  | nil => exact ⟨y, hy, le_refl _⟩
  | cons z rest ih =>
      obtain ⟨w, hw, hyw⟩ :=
        chatMaxUpdate_dominates_old m z.2.2.chat_id (max 0 (z.1 - now)) y hy
      obtain ⟨x, hx, hwx⟩ := ih _ w hw
      exact ⟨x, hx, le_trans hyw hwx⟩

theorem perChatFold_dominates_delay (q : List (ℚ × ℕ × QueueEntry)) (now : ℚ)
    (m : List (ChatId × ℚ)) (z : ℚ × ℕ × QueueEntry) (hz : z ∈ q) :
    ∃ x ∈ q.foldl (fun m x => chatMaxUpdate m x.2.2.chat_id (max 0 (x.1 - now))) m,
      max 0 (z.1 - now) ≤ x.2 := by
  induction q generalizing m with
  | nil => simp at hz
  | cons w rest ih =>
      rcases List.mem_cons.mp hz with h | h
      · subst h
        obtain ⟨p, hp, hdp⟩ :=
          chatMaxUpdate_dominates_new m z.2.2.chat_id (max 0 (z.1 - now))
        obtain ⟨x, hx, hpx⟩ := perChatFold_dominates_old rest now _ p hp
        exact ⟨x, hx, le_trans hdp hpx⟩
      · exact ih _ h

/-- C9: on a non-empty queue, the metrics record satisfies
`max_delay_chat_sec = max_delay_sec` (the worst single recipient's delay
equals the overall maximum), `0 <= avg_delay_sec <= max_delay_sec`, and
every reported delay is floored at zero even when an entry's `ready_at`
lies in the past. -/
theorem C9_metrics_relations (q : List (ℚ × ℕ × QueueEntry)) (now : ℚ)
    (hq : q ≠ []) :
    (queue_metrics q now).max_delay_chat_sec = (queue_metrics q now).max_delay_sec
    ∧ 0 ≤ (queue_metrics q now).avg_delay_sec
    ∧ (queue_metrics q now).avg_delay_sec ≤ (queue_metrics q now).max_delay_sec
    ∧ 0 ≤ (queue_metrics q now).max_delay_sec := by
  cases q with
  | nil => exact absurd rfl hq
  | cons q0 qrest =>
  set Q := q0 :: qrest with hQ
  have hQne : Q ≠ [] := by simp [hQ]
  set delays := Q.map (fun x => max 0 (x.1 - now)) with hdelays
  set per_chat := Q.foldl
    (fun m x => chatMaxUpdate m x.2.2.chat_id (max 0 (x.1 - now))) [] with hpc
  have hdne : delays ≠ [] := by simp [hdelays, hQ]
  have hpcne : per_chat ≠ [] := by
    rw [hpc, hQ, List.foldl_cons]
    exact perChatFold_ne_nil qrest now _ (chatMaxUpdate_ne_nil _ _ _)
  obtain ⟨p, hp⟩ := argmaxPair_isSome per_chat hpcne
  obtain ⟨hpmem, hpdom⟩ := argmaxPair_spec per_chat p.1 p.2 (by rw [hp])
  -- the reported record
  have hmetrics : queue_metrics Q now
      = { queue_depth := Q.length, max_delay_sec := listMax delays
          avg_delay_sec := delays.sum / Q.length
          max_delay_chat_id := some p.1, max_delay_chat_sec := p.2
          sampled_at := now } := by
    rw [hQ]
    simp only [queue_metrics]
    rw [← hQ, ← hdelays, ← hpc, hp]
  -- the argmax value equals the global maximum delay
  have hv_le : p.2 ≤ listMax delays := by
    rcases perChatFold_value_src Q now [] p hpmem with ⟨y, hy, _⟩ | ⟨z, hz, hxz⟩
    · simp at hy
    · exact hxz ▸ le_listMax delays _ (by
        rw [hdelays]
        exact List.mem_map_of_mem _ hz)
  have hv_ge : listMax delays ≤ p.2 := by
    obtain ⟨z, hz, hmz⟩ := List.mem_map.mp (hdelays ▸ listMax_mem delays hdne)
    obtain ⟨x, hx, hzx⟩ := perChatFold_dominates_delay Q now [] z hz
    calc listMax delays = max 0 (z.1 - now) := hmz.symm
      _ ≤ x.2 := hzx
      _ ≤ p.2 := hpdom x hx
  have hveq : p.2 = listMax delays := le_antisymm hv_le hv_ge
  -- delays are nonnegative
  have hd_nonneg : ∀ d ∈ delays, 0 ≤ d := by
    intro d hd
    rw [hdelays] at hd
    obtain ⟨z, _, hzd⟩ := List.mem_map.mp hd
    rw [← hzd]
    exact le_max_left _ _
  have hmax_nonneg : 0 ≤ listMax delays :=
    hd_nonneg _ (listMax_mem delays hdne)
  have hlen_pos : (0 : ℚ) < (Q.length : ℚ) := by
    have hl : 0 < Q.length := by rw [hQ]; simp
    exact_mod_cast hl
  have hsum_nonneg : 0 ≤ delays.sum := List.sum_nonneg hd_nonneg
  have hsum_le : delays.sum ≤ (Q.length : ℚ) * listMax delays := by
    have hlen : delays.length = Q.length := by rw [hdelays]; exact List.length_map _ _
    calc delays.sum ≤ (delays.length : ℚ) * listMax delays := by
          have := List.sum_le_card_nsmul delays (listMax delays)
            (fun d hd => le_listMax delays d hd)
          simpa [nsmul_eq_mul] using this
      _ = (Q.length : ℚ) * listMax delays := by rw [hlen]
  rw [hmetrics]
  refine ⟨hveq, ?_, ?_, hmax_nonneg⟩
  · exact div_nonneg hsum_nonneg (le_of_lt hlen_pos)
  · rw [div_le_iff₀ hlen_pos]
    calc delays.sum ≤ (Q.length : ℚ) * listMax delays := hsum_le
      _ = listMax delays * (Q.length : ℚ) := mul_comm _ _

theorem C9_witness :
    ([((5 : ℚ), (1 : ℕ),
        ({ chat_id := Sum.inl 3, future := 0, retries := 0
           enqueued_at := 0, ready_at := 5 } : QueueEntry))] ≠ ([] : List (ℚ × ℕ × QueueEntry)))
    ∧ (queue_metrics [((5 : ℚ), (1 : ℕ),
        ({ chat_id := Sum.inl 3, future := 0, retries := 0
           enqueued_at := 0, ready_at := 5 } : QueueEntry))] 2).max_delay_chat_sec
      = (queue_metrics [((5 : ℚ), (1 : ℕ),
        ({ chat_id := Sum.inl 3, future := 0, retries := 0
           enqueued_at := 0, ready_at := 5 } : QueueEntry))] 2).max_delay_sec := by
  constructor
  · simp
  · exact (C9_metrics_relations
      [((5 : ℚ), (1 : ℕ),
        ({ chat_id := Sum.inl 3, future := 0, retries := 0
           enqueued_at := 0, ready_at := 5 } : QueueEntry))] 2 (by simp)).1

theorem maybe_notify_skip (cfg : Config) (adminSet : Bool) (la : Option ℚ)
    (depth : ℕ) (maxd now : ℚ)
    (h : ¬ adminSet = true ∨ depth = 0 ∨ maxd < cfg.delay_alert_threshold) :
    maybe_notify_delay cfg adminSet la depth maxd now = (la, false) := by
  unfold maybe_notify_delay
  by_cases ha : adminSet = true
  · rcases h with h | h
    · exact absurd ha h
    · rw [if_neg (by simp [ha]), if_pos h]
  · rw [if_pos (by simp [ha])]

theorem maybe_notify_none (cfg : Config) (adminSet : Bool)
    (depth : ℕ) (maxd now : ℚ) (ha : adminSet = true)
    (hz : ¬ (depth = 0 ∨ maxd < cfg.delay_alert_threshold)) :
    maybe_notify_delay cfg adminSet none depth maxd now = (some now, true) := by
  unfold maybe_notify_delay
  rw [if_neg (by simp [ha]), if_neg hz]

theorem maybe_notify_recent (cfg : Config) (adminSet : Bool)
    (depth : ℕ) (maxd now last : ℚ) (ha : adminSet = true)
    (hz : ¬ (depth = 0 ∨ maxd < cfg.delay_alert_threshold))
    (hcd : now - last < cfg.delay_alert_cooldown) :
    maybe_notify_delay cfg adminSet (some last) depth maxd now
      = (some last, false) := by
  unfold maybe_notify_delay
  rw [if_neg (by simp [ha]), if_neg hz]
  show (if now - last < cfg.delay_alert_cooldown
        then ((some last : Option ℚ), false) else (some now, true))
      = (some last, false)
  rw [if_pos hcd]

theorem maybe_notify_old (cfg : Config) (adminSet : Bool)
    (depth : ℕ) (maxd now last : ℚ) (ha : adminSet = true)
    (hz : ¬ (depth = 0 ∨ maxd < cfg.delay_alert_threshold))
    (hcd : ¬ now - last < cfg.delay_alert_cooldown) :
    maybe_notify_delay cfg adminSet (some last) depth maxd now
      = (some now, true) := by
  unfold maybe_notify_delay
  rw [if_neg (by simp [ha]), if_neg hz]
  show (if now - last < cfg.delay_alert_cooldown
        then ((some last : Option ℚ), false) else (some now, true))
      = (some now, true)
  rw [if_neg hcd]

theorem maybe_notify_fired (cfg : Config) (adminSet : Bool)
    (la : Option ℚ) (depth : ℕ) (maxd now : ℚ)
    (h : (maybe_notify_delay cfg adminSet la depth maxd now).2 = true) :
    adminSet = true ∧ 0 < depth ∧ cfg.delay_alert_threshold ≤ maxd
    ∧ (maybe_notify_delay cfg adminSet la depth maxd now).1 = some now
    ∧ ∀ last, la = some last → last + cfg.delay_alert_cooldown ≤ now := by
  by_cases ha : adminSet = true
  · by_cases hz : depth = 0 ∨ maxd < cfg.delay_alert_threshold
    · rw [maybe_notify_skip cfg adminSet la depth maxd now (Or.inr hz)] at h
      simp at h
    · push_neg at hz
      cases la with
      | none =>
          rw [maybe_notify_none cfg adminSet depth maxd now ha
            (by push_neg; exact hz)]
          exact ⟨ha, Nat.pos_of_ne_zero hz.1, hz.2, rfl,
            by intro last hl; cases hl⟩
      | some last =>
          by_cases hcd : now - last < cfg.delay_alert_cooldown
          · rw [maybe_notify_recent cfg adminSet depth maxd now last ha
              (by push_neg; exact hz) hcd] at h
            simp at h
          · rw [maybe_notify_old cfg adminSet depth maxd now last ha
              (by push_neg; exact hz) hcd]
            refine ⟨ha, Nat.pos_of_ne_zero hz.1, hz.2, rfl, ?_⟩
            intro l hl
            injection hl with hl
            subst hl
            push_neg at hcd
            linarith
  · rw [maybe_notify_skip cfg adminSet la depth maxd now (Or.inl ha)] at h
    simp at h

theorem maybe_notify_not_fired (cfg : Config) (adminSet : Bool)
    (la : Option ℚ) (depth : ℕ) (maxd now : ℚ)
    (h : (maybe_notify_delay cfg adminSet la depth maxd now).2 = false) :
    (maybe_notify_delay cfg adminSet la depth maxd now).1 = la := by
  by_cases ha : adminSet = true
  · by_cases hz : depth = 0 ∨ maxd < cfg.delay_alert_threshold
    · rw [maybe_notify_skip cfg adminSet la depth maxd now (Or.inr hz)]
    · cases la with
      | none =>
          rw [maybe_notify_none cfg adminSet depth maxd now ha hz] at h
          simp at h
      | some last =>
          by_cases hcd : now - last < cfg.delay_alert_cooldown
          · rw [maybe_notify_recent cfg adminSet depth maxd now last ha hz hcd]
          · rw [maybe_notify_old cfg adminSet depth maxd now last ha hz hcd] at h
            simp at h
  · rw [maybe_notify_skip cfg adminSet la depth maxd now (Or.inl ha)]

theorem runAlerts_debounced (cfg : Config) (adminSet : Bool)
    (checks : List (ℕ × ℚ × ℚ)) (la : Option ℚ)
    (hcd : 0 ≤ cfg.delay_alert_cooldown)
    (hmono : checks.Pairwise fun a b => a.2.2 ≤ b.2.2)
    (hla : ∀ last, la = some last → ∀ c ∈ checks, last ≤ c.2.2) :
    (∀ t ∈ runAlerts cfg adminSet la checks, ∃ c ∈ checks, t = c.2.2)
    ∧ (∀ last, la = some last →
        ∀ t ∈ runAlerts cfg adminSet la checks,
          last + cfg.delay_alert_cooldown ≤ t)
    ∧ (runAlerts cfg adminSet la checks).Pairwise
        (fun a b => a + cfg.delay_alert_cooldown ≤ b) := by
  induction checks generalizing la with
  | nil =>
      refine ⟨?_, ?_, ?_⟩ <;> simp [runAlerts]
  | cons c rest ih =>
      obtain ⟨depth, maxd, now⟩ := c
      have hmono' : rest.Pairwise fun a b => a.2.2 ≤ b.2.2 :=
        List.Pairwise.of_cons hmono
      have hhead : ∀ x ∈ rest, now ≤ x.2.2 :=
        fun x hx => List.rel_of_pairwise_cons hmono hx
      have hrun : runAlerts cfg adminSet la ((depth, maxd, now) :: rest)
          = (if (maybe_notify_delay cfg adminSet la depth maxd now).2
             then [now] else [])
            ++ runAlerts cfg adminSet
                (maybe_notify_delay cfg adminSet la depth maxd now).1 rest := rfl
      cases hfire : (maybe_notify_delay cfg adminSet la depth maxd now).2 with
      | false =>
          have hkeep := maybe_notify_not_fired cfg adminSet la depth maxd now hfire
          rw [hrun, hfire]
          simp only [Bool.false_eq_true, if_false, List.nil_append]
          have hrest := ih (maybe_notify_delay cfg adminSet la depth maxd now).1
            hmono'
            (by
              intro last hl x hx
              exact hla last (hkeep ▸ hl) x (List.mem_cons_of_mem _ hx))
          refine ⟨?_, ?_, hrest.2.2⟩
          · intro t ht
            obtain ⟨c', hc', hct⟩ := hrest.1 t ht
            exact ⟨c', List.mem_cons_of_mem _ hc', hct⟩
          · intro last hl t ht
            exact hrest.2.1 last (hkeep.trans hl) t ht
      | true =>
          obtain ⟨-, -, -, hset, hgap⟩ :=
            maybe_notify_fired cfg adminSet la depth maxd now hfire
          rw [hrun, hfire]
          simp only [if_true, List.singleton_append]
          have hrest := ih (maybe_notify_delay cfg adminSet la depth maxd now).1
            hmono'
            (by
              intro last hl x hx
              rw [hset] at hl
              injection hl with hl
              subst hl
              exact hhead x hx)
          have hafter : ∀ t ∈ runAlerts cfg adminSet
              (maybe_notify_delay cfg adminSet la depth maxd now).1 rest,
              now + cfg.delay_alert_cooldown ≤ t :=
            fun t ht => hrest.2.1 now hset t ht
          refine ⟨?_, ?_, ?_⟩
          · intro t ht
            rcases List.mem_cons.mp ht with h | h
            · exact ⟨(depth, maxd, now), List.mem_cons_self _ _, h⟩
            · obtain ⟨c', hc', hct⟩ := hrest.1 t h
              exact ⟨c', List.mem_cons_of_mem _ hc', hct⟩
          · intro last hl t ht
            have hlnow := hgap last hl
            rcases List.mem_cons.mp ht with h | h
            · rw [h]; exact hlnow
            · have := hafter t h
              linarith
          · exact List.pairwise_cons.mpr ⟨hafter, hrest.2.2⟩

/-- C8 (amended): a notification is emitted only when `queue_depth > 0`
and `max_delay_sec` is at least the alert threshold (the source fires at
equality too, hence not strictly "exceeds"), and any two alerts emitted
along a run of checks with non-decreasing loop times are separated by at
least the configured alert cooldown. -/
theorem C8_alert_policy (cfg : Config) (adminSet : Bool)
    (checks : List (ℕ × ℚ × ℚ))
    (hcd : 0 ≤ cfg.delay_alert_cooldown)
    (hmono : checks.Pairwise fun a b => a.2.2 ≤ b.2.2) :
    (∀ la depth maxd now,
      (maybe_notify_delay cfg adminSet la depth maxd now).2 = true →
        0 < depth ∧ cfg.delay_alert_threshold ≤ maxd)
    ∧ (runAlerts cfg adminSet none checks).Pairwise
        (fun a b => a + cfg.delay_alert_cooldown ≤ b) := by
  constructor
  · intro la depth maxd now h
    obtain ⟨-, hd, hm, -, -⟩ := maybe_notify_fired cfg adminSet la depth maxd now h
    exact ⟨hd, hm⟩
  · exact (runAlerts_debounced cfg adminSet checks none hcd hmono
      (by intro last hl; cases hl)).2.2

theorem C8_witness :
    ((0 : ℚ) ≤ (mkConfig 30 1 5).delay_alert_cooldown
      ∧ ([((1 : ℕ), (20 : ℚ), (0 : ℚ)), (1, 20, 100), (1, 20, 400)]).Pairwise
          (fun a b : ℕ × ℚ × ℚ => a.2.2 ≤ b.2.2))
    ∧ ((∀ la depth maxd now,
        (maybe_notify_delay (mkConfig 30 1 5) true la depth maxd now).2 = true →
          0 < depth ∧ (mkConfig 30 1 5).delay_alert_threshold ≤ maxd)
      ∧ (runAlerts (mkConfig 30 1 5) true none
          [((1 : ℕ), (20 : ℚ), (0 : ℚ)), (1, 20, 100), (1, 20, 400)]).Pairwise
          (fun a b => a + (mkConfig 30 1 5).delay_alert_cooldown ≤ b)) := by
  have h1 : (0 : ℚ) ≤ (mkConfig 30 1 5).delay_alert_cooldown := by
    norm_num [mkConfig]
  have h2 : ([((1 : ℕ), (20 : ℚ), (0 : ℚ)), (1, 20, 100), (1, 20, 400)]).Pairwise
      (fun a b : ℕ × ℚ × ℚ => a.2.2 ≤ b.2.2) := by
    norm_num [List.pairwise_cons]
  exact ⟨⟨h1, h2⟩, C8_alert_policy (mkConfig 30 1 5) true
    [((1 : ℕ), (20 : ℚ), (0 : ℚ)), (1, 20, 100), (1, 20, 400)] h1 h2⟩

theorem C8_counterexample :
    (maybe_notify_delay (mkConfig 30 1 5) true none 1 10 0).2 = true
    ∧ ¬ ((10 : ℚ) > (mkConfig 30 1 5).delay_alert_threshold) := by
  have hz : ¬ ((1 : ℕ) = 0 ∨ (10 : ℚ) < (mkConfig 30 1 5).delay_alert_threshold) := by
    push_neg
    refine ⟨one_ne_zero, ?_⟩
    norm_num [mkConfig]
  constructor
  · rw [maybe_notify_none (mkConfig 30 1 5) true 1 10 0 rfl hz]
  · norm_num [mkConfig]

theorem window_trim (h : List ℚ) (c now : ℚ) (hsorted : h.Sorted (· ≤ ·))
    (hc : c ≤ now) :
    trim_global_window now (h.filter fun t => decide (c - 1 < t))
      = h.filter fun t => decide (now - 1 < t) := by
  have hfs : (h.filter fun t => decide (c - 1 < t)).Sorted (· ≤ ·) :=
    List.Pairwise.filter _ hsorted
  rw [trim_eq_filter now _ hfs, filter_filter_cutoff c now h hc]

theorem handle_dispatch_inv (cfg : Config) (w : List ℚ)
    (ls : List (ChatId × ℚ)) (e : QueueEntry) (now : ℚ) (w' : List ℚ)
    (h : handle_ready_entry cfg w ls e now = .dispatch w') :
    w' = trim_global_window now w ∧ w'.length < cfg.global_rate_per_sec := by
  unfold handle_ready_entry at h
  by_cases h1 : (trim_global_window now w).length < cfg.global_rate_per_sec
  · rw [if_pos h1] at h
    by_cases h2 : next_allowed_for_chat cfg ls e.chat_id now > now
    · rw [if_pos h2] at h
      cases h
    · rw [if_neg h2] at h
      injection h with h
      exact ⟨h.symm, h ▸ h1⟩
  · rw [if_neg h1] at h
    cases h

theorem applyDispatch_resolved (cfg : Config) (s : SchedState)
    (e : QueueEntry) (o : CallOutcome) (t : ℚ)
    (h : dispatch_entry cfg e o t = .resolved) :
    applyDispatch cfg s e o t
      = { s with
            global_window := record_global s.global_window t
            per_chat_last_sent := record_chat_send s.per_chat_last_sent e.chat_id t
            futures := futureUpdate s.futures e.future resolveTransition
            send_history := s.send_history ++ [t]
            clock := t } := by
  unfold applyDispatch
  rw [h]

theorem applyDispatch_rejected (cfg : Config) (s : SchedState)
    (e : QueueEntry) (o : CallOutcome) (t : ℚ) (err : SendError)
    (h : dispatch_entry cfg e o t = .rejected err) :
    applyDispatch cfg s e o t
      = { s with
            futures := futureUpdate s.futures e.future (rejectTransition err)
            clock := t } := by
  unfold applyDispatch
  rw [h]

theorem applyDispatch_requeued (cfg : Config) (s : SchedState)
    (e e' : QueueEntry) (o : CallOutcome) (t t' : ℚ)
    (h : dispatch_entry cfg e o t = .requeued e' t') :
    applyDispatch cfg s e o t
      = { s with
            queue := s.queue ++ [(t', s.queue_seq + 1, e')]
            queue_seq := s.queue_seq + 1
            clock := t } := by
  unfold applyDispatch
  rw [h]

theorem slidingCount_append (h : List ℚ) (x q : ℚ) :
    slidingCount (h ++ [x]) q
      = slidingCount h q + (if q - 1 < x ∧ x ≤ q then 1 else 0) := by
  unfold slidingCount
  rw [List.filter_append, List.length_append]
  congr 1
  by_cases hx : q - 1 < x ∧ x ≤ q
  · simp [hx.1, hx.2]
  · rcases not_and_or.mp hx with h1 | h1 <;> simp [hx, h1]

theorem ginv_init (cfg : Config) : GInv cfg initState := by
  refine ⟨?_, ?_, ⟨0, le_refl 0, ?_⟩, ?_, ?_⟩ <;>
    simp [initState, slidingCount, List.Sorted]

theorem ginv_step (cfg : Config) (s s' : SchedState) (hg : GInv cfg s)
    (hstep : Step cfg s s') : GInv cfg s' := by
  obtain ⟨hsort, hpast, ⟨c, hc, hwin⟩, hlen, hcount⟩ := hg
  cases hstep with
  | enqueue chat now hclk =>
      exact ⟨hsort, fun t ht => le_trans (hpast t ht) hclk,
        ⟨c, le_trans hc hclk, hwin⟩, hlen, hcount⟩
  | workerRequeue r n e now t hmem hmin hdue hclk hres =>
      refine ⟨hsort, fun t ht => le_trans (hpast t ht) hclk, ?_, ?_, hcount⟩
      · exact ⟨now, le_refl now, by rw [hwin, window_trim _ c now hsort (le_trans hc hclk)]⟩
      · exact le_trans (trim_length_le now s.global_window) hlen
  | workerDispatch r n e now sendTime outcome w' hmem hmin hdue hclk hsend hres =>
      obtain ⟨hw', hguard⟩ := handle_dispatch_inv cfg s.global_window
        s.per_chat_last_sent e now w' hres
      have hcnow : c ≤ now := le_trans hc hclk
      have hwnow : w' = s.send_history.filter fun t => decide (now - 1 < t) := by
        rw [hw', hwin, window_trim _ c now hsort hcnow]
      have hguard' :
          (s.send_history.filter fun t => decide (now - 1 < t)).length
            < cfg.global_rate_per_sec := by
        rw [← hwnow]
        exact hguard
      cases hd : dispatch_entry cfg e outcome sendTime with
      | resolved =>
          rw [applyDispatch_resolved cfg _ e outcome sendTime hd]
          dsimp only
          have hpast' : ∀ t ∈ s.send_history, t ≤ sendTime :=
            fun t ht => le_trans (hpast t ht) (le_trans hclk hsend)
          have hpastnow : ∀ t ∈ s.send_history, t ≤ sendTime := hpast'
          have hsort' : (s.send_history ++ [sendTime]).Sorted (· ≤ ·) := by
            refine List.pairwise_append.mpr ⟨hsort, ?_, ?_⟩
            · simp
            · intro a ha b hb
              rw [List.mem_singleton.mp hb]
              exact hpast' a ha
          have hfsend :
              (s.send_history.filter fun t => decide (sendTime - 1 < t)).length
                ≤ (s.send_history.filter fun t => decide (now - 1 < t)).length := by
            apply length_filter_mono
            intro a _ hpa
            simp only [decide_eq_true_eq] at hpa ⊢
            have hns : now ≤ sendTime := hsend
            linarith
          have hwrite :
              record_global w' sendTime
                = (s.send_history.filter fun t => decide (sendTime - 1 < t))
                  ++ [sendTime] := by
            unfold record_global
            rw [hwnow, window_trim _ now sendTime hsort hsend]
          refine ⟨hsort', ?_, ?_, ?_, ?_⟩
          · intro t ht
            rcases List.mem_append.mp ht with h1 | h1
            · exact hpast' t h1
            · rw [List.mem_singleton.mp h1]
          · refine ⟨sendTime, le_refl sendTime, ?_⟩
            rw [hwrite, List.filter_append]
            have : decide (sendTime - 1 < sendTime) = true := by
              simp only [decide_eq_true_eq]
              linarith
            simp [this]
          · rw [hwrite, List.length_append]
            have := lt_of_le_of_lt hfsend hguard'
            simp only [List.length_singleton]
            omega
          · intro q
            rw [slidingCount_append]
            by_cases hin : q - 1 < sendTime ∧ sendTime ≤ q
            · rw [if_pos hin]
              have hmono2 : slidingCount s.send_history q
                  ≤ (s.send_history.filter fun t => decide (sendTime - 1 < t)).length := by
                apply length_filter_mono
                intro a _ hpa
                simp only [Bool.and_eq_true, decide_eq_true_eq] at hpa
                simp only [decide_eq_true_eq]
                obtain ⟨hp1, hp2⟩ := hpa
                have := hin.2
                linarith
              have := lt_of_le_of_lt (le_trans hmono2 hfsend) hguard'
              omega
            · rw [if_neg hin]
              have := hcount q
              omega
      | rejected err =>
          rw [applyDispatch_rejected cfg _ e outcome sendTime err hd]
          refine ⟨hsort, ?_, ?_, ?_, hcount⟩
          · intro t ht
            exact le_trans (hpast t ht) (le_trans hclk hsend)
          · exact ⟨now, hsend, hwnow⟩
          · exact le_of_lt hguard
      | requeued e2 t2 =>
          rw [applyDispatch_requeued cfg _ e e2 outcome sendTime t2 hd]
          refine ⟨hsort, ?_, ?_, ?_, hcount⟩
          · intro t ht
            exact le_trans (hpast t ht) (le_trans hclk hsend)
          · exact ⟨now, hsend, hwnow⟩
          · exact le_of_lt hguard
  | cancel fid now hclk hpend =>
      exact ⟨hsort, fun t ht => le_trans (hpast t ht) hclk,
        ⟨c, le_trans hc hclk, hwin⟩, hlen, hcount⟩
  | trim now hclk =>
      refine ⟨hsort, fun t ht => le_trans (hpast t ht) hclk, ?_, ?_, hcount⟩
      · exact ⟨now, le_refl now, by rw [hwin, window_trim _ c now hsort (le_trans hc hclk)]⟩
      · exact le_trans (trim_length_le now s.global_window) hlen
  | stop now hclk =>
      exact ⟨hsort, fun t ht => le_trans (hpast t ht) hclk,
        ⟨c, le_trans hc hclk, hwin⟩, hlen, hcount⟩

theorem reachable_ginv (cfg : Config) (s : SchedState)
    (h : Reachable cfg s) : GInv cfg s := by
  induction h with
  | refl => exact ginv_init cfg
  | tail hsteps hstep ih => exact ginv_step cfg _ _ ih hstep

/-- C2: in every reachable scheduler state the Global Window is
time-ordered and holds at most `global_rate_per_sec` timestamps (also
after pruning at any later clock reading), and the number of recorded
dispatches inside any 1-second sliding window of the send history never
exceeds `global_rate_per_sec` (windows are half-open length-1 intervals,
matching the pruning rule `now - t >= 1.0`). -/
theorem C2_global_window_bound (cfg : Config) (s : SchedState)
    (h : Reachable cfg s) :
    s.global_window.Sorted (· ≤ ·)
    ∧ s.global_window.length ≤ cfg.global_rate_per_sec
    ∧ (∀ now, (trim_global_window now s.global_window).length
        ≤ cfg.global_rate_per_sec)
    ∧ ∀ q : ℚ, slidingCount s.send_history q ≤ cfg.global_rate_per_sec := by
  obtain ⟨hsort, hpast, ⟨c, hc, hwin⟩, hlen, hcount⟩ := reachable_ginv cfg s h
  refine ⟨?_, hlen, ?_, hcount⟩
  · rw [hwin]
    exact List.Pairwise.filter _ hsort
  · intro now
    exact le_trans (trim_length_le now s.global_window) hlen

theorem C2_witness :
    Reachable (mkConfig 30 1 10)
      (enqueue_send (mkConfig 30 1 10) initState (Sum.inl 4) 0).1
    ∧ ((enqueue_send (mkConfig 30 1 10) initState (Sum.inl 4) 0).1.global_window.Sorted (· ≤ ·)
      ∧ (enqueue_send (mkConfig 30 1 10) initState (Sum.inl 4) 0).1.global_window.length
          ≤ (mkConfig 30 1 10).global_rate_per_sec
      ∧ (∀ now, (trim_global_window now
          (enqueue_send (mkConfig 30 1 10) initState (Sum.inl 4) 0).1.global_window).length
          ≤ (mkConfig 30 1 10).global_rate_per_sec)
      ∧ ∀ q : ℚ, slidingCount
          (enqueue_send (mkConfig 30 1 10) initState (Sum.inl 4) 0).1.send_history q
          ≤ (mkConfig 30 1 10).global_rate_per_sec) := by
  have hreach : Reachable (mkConfig 30 1 10)
      (enqueue_send (mkConfig 30 1 10) initState (Sum.inl 4) 0).1 :=
    Relation.ReflTransGen.single
      (Step.enqueue initState (Sum.inl 4) 0 (le_refl 0))
  exact ⟨hreach, C2_global_window_bound (mkConfig 30 1 10) _ hreach⟩

theorem removeEntry_sublist (q : List (ℚ × ℕ × QueueEntry)) (fid : ℕ) :
    List.Sublist (removeEntry q fid) q := by
  induction q with
  | nil => simp [removeEntry]
  | cons x rest ih =>
      simp only [removeEntry]
      split
      · exact List.sublist_cons_self x rest
      · exact List.Sublist.cons₂ x ih

theorem removeEntry_eq_of_not_mem (q : List (ℚ × ℕ × QueueEntry)) (fid : ℕ)
    (h : fid ∉ queueFids q) : removeEntry q fid = q := by
  induction q with
  | nil => rfl
  | cons x rest ih =>
      have hx : x.2.2.future ≠ fid := by
        intro heq
        exact h (by simp [queueFids, heq])
      have hrest : fid ∉ queueFids rest := by
        intro hm
        exact h (by simp [queueFids] at hm ⊢; exact Or.inr hm)
      simp only [removeEntry, if_neg hx]
      rw [ih hrest]

theorem not_mem_removeEntry (q : List (ℚ × ℕ × QueueEntry)) (fid : ℕ)
    (hnd : (queueFids q).Nodup) : fid ∉ queueFids (removeEntry q fid) := by
  induction q with
  | nil => simp [removeEntry, queueFids]
  | cons x rest ih =>
      have hnd' : (queueFids rest).Nodup := by
        simp only [queueFids, List.map_cons, List.nodup_cons] at hnd
        exact hnd.2
      by_cases hx : x.2.2.future = fid
      · simp only [removeEntry, if_pos hx]
        simp only [queueFids, List.map_cons, List.nodup_cons] at hnd
        rw [← hx]
        exact hnd.1
      · simp only [removeEntry, if_neg hx]
        intro hmem
        simp only [queueFids, List.map_cons, List.mem_cons] at hmem
        rcases hmem with h1 | h1
        · exact hx h1.symm
        · exact ih hnd' h1

theorem mem_queueFids (q : List (ℚ × ℕ × QueueEntry)) (r : ℚ) (n : ℕ)
    (e : QueueEntry) (h : (r, n, e) ∈ q) : e.future ∈ queueFids q := by
  simp only [queueFids, List.mem_map]
  exact ⟨(r, n, e), h, rfl⟩

theorem erase_fids (q : List (ℚ × ℕ × QueueEntry)) (x : ℚ × ℕ × QueueEntry)
    (hmem : x ∈ q) (hnd : (queueFids q).Nodup) :
    x.2.2.future ∉ queueFids (q.erase x)
    ∧ (queueFids (q.erase x)).Nodup
    ∧ ∀ g ∈ queueFids (q.erase x), g ∈ queueFids q := by
  obtain ⟨l₁, l₂, hx1, hdecomp, herase⟩ := List.exists_erase_eq hmem
  have h1 : queueFids q = queueFids l₁ ++ x.2.2.future :: queueFids l₂ := by
    rw [hdecomp]
    simp [queueFids]
  have h2 : queueFids (q.erase x) = queueFids l₁ ++ queueFids l₂ := by
    rw [herase]
    simp [queueFids]
  rw [h1, List.nodup_middle] at hnd
  have hnc := List.nodup_cons.mp hnd
  refine ⟨by rw [h2]; exact hnc.1, by rw [h2]; exact hnc.2, ?_⟩
  intro g hg
  rw [h2] at hg
  rw [h1]
  rcases List.mem_append.mp hg with h | h
  · exact List.mem_append.mpr (Or.inl h)
  · exact List.mem_append.mpr (Or.inr (List.mem_cons_of_mem _ h))

theorem rejectQueued_keys (q : List (ℚ × ℕ × QueueEntry))
    (fs : List (ℕ × FutureState)) :
    futureKeys (rejectQueued q fs) = futureKeys fs := by
  induction q generalizing fs with
  | nil => rfl
  | cons x rest ih =>
      show futureKeys (rejectQueued rest
        (futureUpdate fs x.2.2.future (rejectTransition .shutdown)))
          = futureKeys fs
      rw [ih, futureKeys_update]

theorem dispatch_requeued_future (cfg : Config) (e : QueueEntry)
    (o : CallOutcome) (t : ℚ) (e2 : QueueEntry) (t2 : ℚ)
    (h : dispatch_entry cfg e o t = .requeued e2 t2) : e2.future = e.future := by
  cases o with
  | ok => simp [dispatch_entry] at h
  | raiseRetryAfter d =>
      simp only [dispatch_entry] at h
      by_cases hgt : e.retries + 1 > cfg.max_retry_attempts
      · rw [if_pos hgt] at h
        exact DispatchResult.noConfusion h
      · rw [if_neg hgt] at h
        injection h with h1 h2
        rw [← h1]
  | raiseNetwork =>
      simp only [dispatch_entry] at h
      by_cases hgt : e.retries + 1 > cfg.max_retry_attempts
      · rw [if_pos hgt] at h
        exact DispatchResult.noConfusion h
      · rw [if_neg hgt] at h
        injection h with h1 h2
        rw [← h1]
  | raiseOther => simp [dispatch_entry] at h

theorem wf_init : WF initState := by
  refine ⟨List.nodup_nil, ?_, ?_⟩ <;>
    intro fid h <;> simp [futureKeys, queueFids, initState] at h

theorem wf_step (cfg : Config) (s s' : SchedState) (hwf : WF s)
    (hstep : Step cfg s s') : WF s' := by
  obtain ⟨hnd, hkeys, hpend⟩ := hwf
  cases hstep with
  | enqueue chat now hclk =>
      have hsub : ∀ fid ∈ queueFids s.queue, fid ∈ futureKeys s.futures :=
        fun fid hf => mem_keys_of_lookup_some _ _ _ (hpend fid hf)
      have hlt : ∀ fid ∈ queueFids s.queue, fid < s.next_future :=
        fun fid hf => hkeys fid (hsub fid hf)
      have hfq : queueFids ((enqueue_send cfg s chat now).1.queue)
          = queueFids s.queue ++ [s.next_future] := by
        simp [enqueue_send, queueFids]
      have hkq : futureKeys ((enqueue_send cfg s chat now).1.futures)
          = futureKeys s.futures ++ [s.next_future] := by
        simp [enqueue_send, futureKeys]
      refine ⟨?_, ?_, ?_⟩
      · rw [hfq]
        rw [List.nodup_append]
        refine ⟨hnd, List.nodup_singleton _, ?_⟩
        intro a ha hb
        rw [List.mem_singleton.mp hb] at ha
        exact lt_irrefl _ (hlt _ ha)
      · intro fid hf
        rw [hkq] at hf
        show fid < s.next_future + 1
        rcases List.mem_append.mp hf with h | h
        · exact Nat.lt_succ_of_lt (hkeys fid h)
        · rw [List.mem_singleton.mp h]
          exact Nat.lt_succ_self _
      · intro fid hf
        rw [hfq] at hf
        show futureLookup (s.futures ++ [(s.next_future, .pending)]) fid
          = some .pending
        rw [futureLookup_append]
        rcases List.mem_append.mp hf with h | h
        · rw [hpend fid h]
        · rw [List.mem_singleton.mp h,
            lookup_none_of_keys_lt s.futures s.next_future hkeys]
          simp [futureLookup]
  | workerRequeue r n e now t hmem hmin hdue hclk hres =>
      obtain ⟨hout, hnd', hsub'⟩ := erase_fids s.queue (r, n, e) hmem hnd
      have hfq : queueFids ((s.queue.erase (r, n, e))
            ++ [(t, s.queue_seq + 1, { e with ready_at := t })])
          = queueFids (s.queue.erase (r, n, e)) ++ [e.future] := by
        simp [queueFids]
      refine ⟨?_, hkeys, ?_⟩
      · rw [hfq, List.nodup_append]
        refine ⟨hnd', List.nodup_singleton _, ?_⟩
        intro a ha hb
        rw [List.mem_singleton.mp hb] at ha
        exact hout ha
      · intro fid hf
        rw [hfq] at hf
        rcases List.mem_append.mp hf with h | h
        · exact hpend fid (hsub' fid h)
        · rw [List.mem_singleton.mp h]
          exact hpend e.future (mem_queueFids s.queue r n e hmem)
  | workerDispatch r n e now sendTime outcome w' hmem hmin hdue hclk hsend hres =>
      obtain ⟨hout, hnd', hsub'⟩ := erase_fids s.queue (r, n, e) hmem hnd
      have hef : e.future ∈ queueFids s.queue := mem_queueFids s.queue r n e hmem
      cases hd : dispatch_entry cfg e outcome sendTime with
      | resolved =>
          rw [applyDispatch_resolved cfg _ e outcome sendTime hd]
          refine ⟨hnd', ?_, ?_⟩
          · intro fid hf
            rw [futureKeys_update] at hf
            exact hkeys fid hf
          · intro fid hf
            have hne : fid ≠ e.future := fun heq => hout (heq ▸ hf)
            show futureLookup (futureUpdate s.futures e.future resolveTransition) fid
              = some .pending
            rw [futureLookup_update, if_neg hne]
            exact hpend fid (hsub' fid hf)
      | rejected err =>
          rw [applyDispatch_rejected cfg _ e outcome sendTime err hd]
          refine ⟨hnd', ?_, ?_⟩
          · intro fid hf
            rw [futureKeys_update] at hf
            exact hkeys fid hf
          · intro fid hf
            have hne : fid ≠ e.future := fun heq => hout (heq ▸ hf)
            show futureLookup (futureUpdate s.futures e.future (rejectTransition err)) fid
              = some .pending
            rw [futureLookup_update, if_neg hne]
            exact hpend fid (hsub' fid hf)
      | requeued e2 t2 =>
          rw [applyDispatch_requeued cfg _ e e2 outcome sendTime t2 hd]
          have he2 : e2.future = e.future :=
            dispatch_requeued_future cfg e outcome sendTime e2 t2 hd
          have hfq : queueFids ((s.queue.erase (r, n, e))
                ++ [(t2, s.queue_seq + 1, e2)])
              = queueFids (s.queue.erase (r, n, e)) ++ [e.future] := by
            simp [queueFids, he2]
          refine ⟨?_, hkeys, ?_⟩
          · rw [hfq, List.nodup_append]
            refine ⟨hnd', List.nodup_singleton _, ?_⟩
            intro a ha hb
            rw [List.mem_singleton.mp hb] at ha
            exact hout ha
          · intro fid hf
            rw [hfq] at hf
            rcases List.mem_append.mp hf with h | h
            · exact hpend fid (hsub' fid h)
            · rw [List.mem_singleton.mp h]
              exact hpend e.future hef
  | cancel fid now hclk hp =>
      have hsubl : List.Sublist (queueFids (removeEntry s.queue fid))
          (queueFids s.queue) :=
        List.Sublist.map _ (removeEntry_sublist s.queue fid)
      refine ⟨hsubl.nodup hnd, ?_, ?_⟩
      · intro g hg
        have hg' : g ∈ futureKeys (futureUpdate s.futures fid cancelTransition) := hg
        rw [futureKeys_update] at hg'
        exact hkeys g hg' 
      · intro g hg
        have hgq : g ∈ queueFids s.queue := hsubl.mem hg
        have hne : g ≠ fid := by
          intro heq
          subst heq
          by_cases hmemq : g ∈ queueFids s.queue
          · exact not_mem_removeEntry s.queue g hnd hg
          · exact hmemq hgq
        show futureLookup (futureUpdate s.futures fid cancelTransition) g
          = some .pending
        rw [futureLookup_update, if_neg hne]
        exact hpend g hgq
  | trim now hclk =>
      exact ⟨hnd, hkeys, hpend⟩
  | stop now hclk =>
      refine ⟨List.nodup_nil, ?_, ?_⟩
      · intro fid hf
        have hf' : fid ∈ futureKeys (rejectQueued s.queue s.futures) := hf
        rw [rejectQueued_keys] at hf'
        exact hkeys fid hf'
      · intro fid hf
        have hf' : fid ∈ queueFids ([] : List (ℚ × ℕ × QueueEntry)) := hf
        simp [queueFids] at hf' 

theorem reachable_wf (cfg : Config) (s : SchedState)
    (h : Reachable cfg s) : WF s := by
  induction h with
  | refl => exact wf_init
  | tail hsteps hstep ih => exact wf_step cfg _ _ ih hstep

theorem queueFids_sublist (q1 q2 : List (ℚ × ℕ × QueueEntry))
    (h : List.Sublist q1 q2) :
    List.Sublist (queueFids q1) (queueFids q2) :=
  List.Sublist.map _ h

theorem step_invoked (cfg : Config) (s s' : SchedState)
    (hstep : Step cfg s s') :
    s'.invoked = s.invoked
    ∨ ∃ g ∈ queueFids s.queue, s'.invoked = s.invoked ++ [g] := by
  cases hstep with
  | enqueue chat now hclk => exact Or.inl rfl
  | workerRequeue r n e now t hmem hmin hdue hclk hres => exact Or.inl rfl
  | workerDispatch r n e now sendTime outcome w' hmem hmin hdue hclk hsend hres =>
      refine Or.inr ⟨e.future, mem_queueFids s.queue r n e hmem, ?_⟩
      cases hd : dispatch_entry cfg e outcome sendTime with
      | resolved => rw [applyDispatch_resolved cfg _ e outcome sendTime hd]
      | rejected err => rw [applyDispatch_rejected cfg _ e outcome sendTime err hd]
      | requeued e2 t2 => rw [applyDispatch_requeued cfg _ e e2 outcome sendTime t2 hd]
  | cancel fid now hclk hp => exact Or.inl rfl
  | trim now hclk => exact Or.inl rfl
  | stop now hclk => exact Or.inl rfl

theorem dead_step (cfg : Config) (fid : ℕ) (s s' : SchedState) (hwf : WF s)
    (hdead : Dead fid s) (hstep : Step cfg s s') : Dead fid s' := by
  obtain ⟨hnd, hkeys, hpend⟩ := hwf
  obtain ⟨hcanc, hnq⟩ := hdead
  cases hstep with
  | enqueue chat now hclk =>
      have hmemk : fid ∈ futureKeys s.futures :=
        mem_keys_of_lookup_some _ _ _ hcanc
      have hne : fid ≠ s.next_future := by
        have := hkeys fid hmemk
        omega
      constructor
      · show futureLookup (s.futures ++ [(s.next_future, .pending)]) fid
          = some .cancelled
        rw [futureLookup_append, hcanc]
      · intro hmem
        have hfq : queueFids ((enqueue_send cfg s chat now).1.queue)
            = queueFids s.queue ++ [s.next_future] := by
          simp [enqueue_send, queueFids]
        rw [hfq] at hmem
        rcases List.mem_append.mp hmem with h | h
        · exact hnq h
        · exact hne (List.mem_singleton.mp h)
  | workerRequeue r n e now t hmem hmin hdue hclk hres =>
      have hef : e.future ∈ queueFids s.queue := mem_queueFids s.queue r n e hmem
      have hne : fid ≠ e.future := fun heq => hnq (heq ▸ hef)
      refine ⟨hcanc, ?_⟩
      intro hm
      have hfq : queueFids ((s.queue.erase (r, n, e))
            ++ [(t, s.queue_seq + 1, { e with ready_at := t })])
          = queueFids (s.queue.erase (r, n, e)) ++ [e.future] := by
        simp [queueFids]
      rw [hfq] at hm
      rcases List.mem_append.mp hm with h | h
      · exact hnq ((queueFids_sublist _ _ (List.erase_sublist _ _)).mem h)
      · exact hne (List.mem_singleton.mp h)
  | workerDispatch r n e now sendTime outcome w' hmem hmin hdue hclk hsend hres =>
      have hef : e.future ∈ queueFids s.queue := mem_queueFids s.queue r n e hmem
      have hne : fid ≠ e.future := fun heq => hnq (heq ▸ hef)
      have hnq' : fid ∉ queueFids (s.queue.erase (r, n, e)) := fun h =>
        hnq ((queueFids_sublist _ _ (List.erase_sublist _ _)).mem h)
      cases hd : dispatch_entry cfg e outcome sendTime with
      | resolved =>
          rw [applyDispatch_resolved cfg _ e outcome sendTime hd]
          refine ⟨?_, hnq'⟩
          show futureLookup (futureUpdate s.futures e.future resolveTransition) fid
            = some .cancelled
          rw [futureLookup_update, if_neg hne]
          exact hcanc
      | rejected err =>
          rw [applyDispatch_rejected cfg _ e outcome sendTime err hd]
          refine ⟨?_, hnq'⟩
          show futureLookup (futureUpdate s.futures e.future (rejectTransition err)) fid
            = some .cancelled
          rw [futureLookup_update, if_neg hne]
          exact hcanc
      | requeued e2 t2 =>
          rw [applyDispatch_requeued cfg _ e e2 outcome sendTime t2 hd]
          have he2 : e2.future = e.future :=
            dispatch_requeued_future cfg e outcome sendTime e2 t2 hd
          refine ⟨hcanc, ?_⟩
          intro hm
          have hfq : queueFids ((s.queue.erase (r, n, e))
                ++ [(t2, s.queue_seq + 1, e2)])
              = queueFids (s.queue.erase (r, n, e)) ++ [e.future] := by
            simp [queueFids, he2]
          rw [hfq] at hm
          rcases List.mem_append.mp hm with h | h
          · exact hnq' h
          · exact hne (List.mem_singleton.mp h)
  | cancel g now hclk hp =>
      have hne : fid ≠ g := by
        intro heq
        rw [← heq, hcanc] at hp
        exact FutureState.noConfusion (Option.some.injEq _ _ ▸ hp)
      constructor
      · show futureLookup (futureUpdate s.futures g cancelTransition) fid
          = some .cancelled
        rw [futureLookup_update, if_neg hne]
        exact hcanc
      · intro hm
        exact hnq ((queueFids_sublist _ _ (removeEntry_sublist s.queue g)).mem hm)
  | trim now hclk => exact ⟨hcanc, hnq⟩
  | stop now hclk =>
      constructor
      · show futureLookup (rejectQueued s.queue s.futures) fid = some .cancelled
        exact rejectQueued_preserves_nonpending s.queue s.futures fid _ hcanc
          (by simp)
      · intro hm
        have hm' : fid ∈ queueFids ([] : List (ℚ × ℕ × QueueEntry)) := hm
        simp [queueFids] at hm'

theorem dead_not_invoked (cfg : Config) (fid : ℕ) (s1 s2 : SchedState)
    (hwf : WF s1) (hdead : Dead fid s1)
    (hsteps : Relation.ReflTransGen (Step cfg) s1 s2) :
    (WF s2 ∧ Dead fid s2) ∧ (fid ∈ s2.invoked → fid ∈ s1.invoked) := by
  induction hsteps with
  | refl => exact ⟨⟨hwf, hdead⟩, fun h => h⟩
  | tail hab hbc ih =>
      obtain ⟨⟨hwfb, hdeadb⟩, hinv⟩ := ih
      refine ⟨⟨wf_step cfg _ _ hwfb hbc, dead_step cfg fid _ _ hwfb hdeadb hbc⟩, ?_⟩
      intro h
      rcases step_invoked cfg _ _ hbc with he | ⟨g, hg, he⟩
      · exact hinv (he ▸ h)
      · rw [he] at h
        rcases List.mem_append.mp h with h1 | h1
        · exact hinv h1
        · exact absurd (List.mem_singleton.mp h1 ▸ hg) hdeadb.2

/-- C5: cancelling a pending, not-yet-dispatched entry removes it from
the queue and resolves its handle with a cancellation error; its
operation is then never invoked by any subsequent step; and the
cancellation queue scan has no effect on a queue that no longer contains
the entry (dispatch already began). -/
theorem C5_cancellation (cfg : Config) (s : SchedState) (fid : ℕ) (now : ℚ)
    (hreach : Reachable cfg s) (hclk : s.clock ≤ now)
    (hpend : futureLookup s.futures fid = some .pending)
    (hninv : fid ∉ s.invoked) :
    (fid ∉ queueFids (cancelState s fid now).queue
      ∧ futureLookup (cancelState s fid now).futures fid = some .cancelled)
    ∧ (∀ s2, Relation.ReflTransGen (Step cfg) (cancelState s fid now) s2 →
        fid ∉ s2.invoked)
    ∧ (fid ∉ queueFids s.queue → removeEntry s.queue fid = s.queue) := by
  have hwf : WF s := reachable_wf cfg s hreach
  have hdead : Dead fid (cancelState s fid now) := by
    constructor
    · show futureLookup (futureUpdate s.futures fid cancelTransition) fid
        = some .cancelled
      rw [futureLookup_update, if_pos rfl, hpend]
      simp [cancelTransition]
    · exact not_mem_removeEntry s.queue fid hwf.1
  have hwf1 : WF (cancelState s fid now) :=
    wf_step cfg s _ hwf (Step.cancel s fid now hclk hpend)
  refine ⟨⟨hdead.2, hdead.1⟩, ?_, ?_⟩
  · intro s2 hs2 hmem2
    exact hninv ((dead_not_invoked cfg fid _ s2 hwf1 hdead hs2).2 hmem2)
  · exact removeEntry_eq_of_not_mem s.queue fid

theorem C5_witness :
    (Reachable (mkConfig 30 1 10)
        (enqueue_send (mkConfig 30 1 10) initState (Sum.inl 9) 0).1
      ∧ (enqueue_send (mkConfig 30 1 10) initState (Sum.inl 9) 0).1.clock ≤ 1
      ∧ futureLookup
          (enqueue_send (mkConfig 30 1 10) initState (Sum.inl 9) 0).1.futures 0
          = some .pending
      ∧ (0 : ℕ) ∉ (enqueue_send (mkConfig 30 1 10) initState (Sum.inl 9) 0).1.invoked)
    ∧ ((0 : ℕ) ∉ queueFids
        (cancelState (enqueue_send (mkConfig 30 1 10) initState (Sum.inl 9) 0).1 0 1).queue
      ∧ futureLookup
          (cancelState (enqueue_send (mkConfig 30 1 10) initState (Sum.inl 9) 0).1 0 1).futures 0
          = some .cancelled) := by
  have hreach : Reachable (mkConfig 30 1 10)
      (enqueue_send (mkConfig 30 1 10) initState (Sum.inl 9) 0).1 :=
    Relation.ReflTransGen.single
      (Step.enqueue initState (Sum.inl 9) 0 (le_refl 0))
  have hclk : (enqueue_send (mkConfig 30 1 10) initState (Sum.inl 9) 0).1.clock ≤ 1 := by
    show (0 : ℚ) ≤ 1
    norm_num
  have hpend : futureLookup
      (enqueue_send (mkConfig 30 1 10) initState (Sum.inl 9) 0).1.futures 0
      = some .pending := rfl
  have hninv : (0 : ℕ) ∉ (enqueue_send (mkConfig 30 1 10) initState (Sum.inl 9) 0).1.invoked := by
    intro h
    exact absurd h (List.not_mem_nil 0)
  exact ⟨⟨hreach, hclk, hpend, hninv⟩,
    (C5_cancellation (mkConfig 30 1 10) _ 0 1 hreach hclk hpend hninv).1⟩

end RateLimiterSpec
